import Mathlib

/-!
# Verification of the QASM temporal-graph construction engine

Shallow embedding of the parsing / graph-construction engine of the
repository (the `QasmParser` class of `src/web/graph.js`, together with the
`QASM_Parser.getBits` variant of `src/web/parser.js`), and proofs of the
specification claims about it.

Strings are manipulated through their character lists; the character-class
predicates mirror the JavaScript regex classes (`[a-zA-Z]`, `\d`, `\w`,
`\s`) on ASCII code points.
-/

namespace Qasm

/-- ASCII whitespace, the characters matched by the JavaScript `\s` class
(space, tab, line feed, vertical tab, form feed, carriage return). -/
def isWsChar (c : Char) : Bool :=
  c.toNat = 32 || (9 ≤ c.toNat && c.toNat ≤ 13)

/-- The JavaScript `[a-zA-Z]` class. -/
def isLetterChar (c : Char) : Bool :=
  (65 ≤ c.toNat && c.toNat ≤ 90) || (97 ≤ c.toNat && c.toNat ≤ 122)

/-- The JavaScript `\d` class. -/
def isDigitChar (c : Char) : Bool :=
  48 ≤ c.toNat && c.toNat ≤ 57

/-- The JavaScript `\w` class (`[A-Za-z0-9_]`). -/
def isWordChar (c : Char) : Bool :=
  isLetterChar c || isDigitChar c || c.toNat = 95

/-- Letters and digits: the characters a bit id produced by `getBitInfo`
consists of. -/
def isAlphanumChar (c : Char) : Bool :=
  isLetterChar c || isDigitChar c

/-- `startsWith` on strings, by character-list prefix (the semantics of
JavaScript `String.prototype.startsWith`). -/
def sStartsWith (s pre : String) : Bool :=
  pre.data.isPrefixOf s.data

/-- Does the string contain the character? (JavaScript `includes` with a
one-character argument.) -/
def sContainsChar (s : String) (c : Char) : Bool :=
  s.data.any (fun d => d = c)

/-- Split a character list at every character satisfying `p`, keeping empty
pieces — the semantics of JavaScript `split` on a one-character regex
class. -/
def splitBy (p : Char → Bool) : List Char → List (List Char)
  | [] => [[]]
  | c :: r =>
    match splitBy p r with
    | [] => if p c then [[], []] else [[c]]
    | g :: gs => if p c then [] :: g :: gs else (c :: g) :: gs

/-- Split a string at every character satisfying `p`. -/
def sSplit (p : Char → Bool) (s : String) : List String :=
  (splitBy p s.data).map (fun l => String.mk l)

/-- Drop `\s` characters from both ends (JavaScript `trim`). -/
def trimChars (l : List Char) : List Char :=
  (((l.dropWhile isWsChar).reverse.dropWhile isWsChar).reverse)

/-- `trim` on strings. -/
def sTrim (s : String) : String :=
  String.mk (trimChars s.data)

/-- The part of a line before the first `//` (JavaScript
`line.split("//")[0]`). -/
def beforeComment : List Char → List Char
  | [] => []
  | '/' :: '/' :: _ => []
  | c :: r => c :: beforeComment r

/-- Remove one trailing `;` if present (JavaScript `replace(/;$/, "")`). -/
def stripSemi (s : String) : String :=
  match s.data.getLast? with
  | some c => if c = ';' then String.mk s.data.dropLast else s
  | none => s

/-- Remove one trailing `,` or `;` if present
(JavaScript `replace(/[,;]$/g, "")`). -/
def stripCommaSemi (s : String) : String :=
  match s.data.getLast? with
  | some c => if c = ';' ∨ c = ',' then String.mk s.data.dropLast else s
  | none => s

/-- Numeric value of a digit list (the value `parseInt` / `Number` gives a
`\d+` match). -/
def natOfDigits (l : List Char) : Nat :=
  l.foldl (fun a c => a * 10 + (c.toNat - 48)) 0

/-! ## `getBitInfo`: the `([a-zA-Z]+)\[(\d+)\]` extractor -/

/-- Try to match `([a-zA-Z]+)\[(\d+)\]` at the head of the list; on success
return the letter group and the digit group. -/
def tryBitAt (l : List Char) : Option (String × String) :=
  let letters := l.takeWhile isLetterChar
  if letters.isEmpty then none
  else
    match l.dropWhile isLetterChar with
    | '[' :: r2 =>
      let digits := r2.takeWhile isDigitChar
      if digits.isEmpty then none
      else
        match r2.dropWhile isDigitChar with
        | ']' :: _ => some (String.mk letters, String.mk digits)
        | _ => none
    | _ => none

/-- Search for the leftmost match of `([a-zA-Z]+)\[(\d+)\]`. -/
def bitScan : List Char → Option (String × String)
  | [] => none
  | c :: r =>
    match tryBitAt (c :: r) with
    | some x => some x
    | none => bitScan r

/-- `getBitInfo` of `src/web/graph.js` (and `src/web/parser.js`): extract
`(register, index)` from a token like `q[0]`, or nothing when the regex
does not match. -/
def getBitInfo (bit : String) : Option (String × String) :=
  bitScan bit.data

/-! ## Declaration matching: `qreg\s+([a-zA-Z_]\w*)\[(\d+)\]` -/

/-- Try to match `kw` + `\s+` + a name (first char satisfying `startP`,
further chars `\w`) + `[` + `\d+` + `]` at the head of the list. -/
def tryDeclAt (kw : List Char) (startP : Char → Bool) (l : List Char) :
    Option (String × Nat) :=
  if kw.isPrefixOf l then
    let r0 := l.drop kw.length
    let ws := r0.takeWhile isWsChar
    if ws.isEmpty then none
    else
      match r0.dropWhile isWsChar with
      | [] => none
      | c0 :: r1 =>
        if startP c0 then
          let nameRest := r1.takeWhile isWordChar
          match r1.dropWhile isWordChar with
          | '[' :: r2 =>
            let digits := r2.takeWhile isDigitChar
            if digits.isEmpty then none
            else
              match r2.dropWhile isDigitChar with
              | ']' :: _ => some (String.mk (c0 :: nameRest), natOfDigits digits)
              | _ => none
          | _ => none
        else none
  else none

/-- Leftmost-match search for the declaration pattern. -/
def declScan (kw : List Char) (startP : Char → Bool) :
    List Char → Option (String × Nat)
  | [] => none
  | c :: r =>
    match tryDeclAt kw startP (c :: r) with
    | some x => some x
    | none => declScan kw startP r

/-- Match the `graph.js` declaration regex
`/qreg\s+([a-zA-Z_]\w*)\[(\d+)\]/` (or the `creg` one) against a line,
returning the register name and size. -/
def matchDecl (kw : String) (line : String) : Option (String × Nat) :=
  declScan kw.data (fun c => isLetterChar c || c.toNat = 95) line.data

/-- Match the `parser.js` declaration regex `/qreg\s+\w+\[(\d+)\]/` (or the
`creg` one) against a line, returning the size (the name is not
captured there). -/
def matchDeclW (kw : String) (line : String) : Option (String × Nat) :=
  declScan kw.data isWordChar line.data

/-! ## Data model -/

/-- A declared bit of the registry (an entry of `this.bits`). -/
structure BitRec where
  id : String
  type : String
  name : String
  lastGateConnected : Option String
deriving Repr, DecidableEq

/-- A graph node (`{ id, type, name, gate_info? }`); `info` is `none` when
the JavaScript object has no `gate_info` field. -/
structure Node where
  id : String
  type : String
  name : String
  info : Option String
deriving Repr, DecidableEq

/-- A directed edge `{ source, target }`. -/
structure Edge where
  source : String
  target : String
deriving Repr, DecidableEq

/-- The live graph: node list and edge list, both append-only. -/
structure Graph where
  nodes : List Node
  edges : List Edge
deriving Repr, DecidableEq

/-- `cloneGraph` of `graph.js`: a copy of the node and edge lists. -/
def cloneGraph (g : Graph) : Graph :=
  { nodes := g.nodes.map (fun n => n), edges := g.edges.map (fun e => e) }

/-- The bit registry: an insertion-ordered association list, the embedding
of the JavaScript object `this.bits`. -/
abbrev Bits := List (String × BitRec)

/-- Property lookup on the registry object (first matching key). -/
def lookupBits : Bits → String → Option BitRec
  | [], _ => none
  | (k, v) :: r, key => if k = key then some v else lookupBits r key

/-- Property assignment on the registry object: overwrite in place when the
key exists, append otherwise (JavaScript object insertion order). -/
def insertBit : Bits → String → BitRec → Bits
  | [], k, v => [(k, v)]
  | (k0, v0) :: r, k, v =>
    if k0 = k then (k, v) :: r else (k0, v0) :: insertBit r k v

/-- The errors the engine can abort with. `malformedBit` is the
`MalformedBitReferenceError` of the spec (the `Unrecognized bit format`
throws), `unknownBit` its `UnknownBitError` (the `Unknown bit referenced in
gate` throw); each carries the exact thrown message. -/
inductive BuildError where
  | malformedBit (msg : String)
  | unknownBit (msg : String)
deriving Repr, DecidableEq

/-- A single-quote character, used when assembling the thrown messages. -/
def sq : String := String.mk [Char.ofNat 39]

/-- Message of the single-operand malformed-bit throw:
`Unrecognized bit format: <tok>`, with the token quoted. -/
def msgTok (tok : String) : String :=
  "Unrecognized bit format: " ++ sq ++ tok ++ sq

/-- Message of the two-operand malformed-bit throw, citing the whole
line. -/
def msgLine (line : String) : String :=
  "Unrecognized bit format in line: " ++ sq ++ line ++ sq

/-- Message of the measurement malformed-bit throw, citing the re-joined
token list. -/
def msgMeasure (parts : String) : String :=
  "Unrecognized bit format in measurement: " ++ sq ++ parts ++ sq

/-- Message of the unknown-bit throw. -/
def msgUnknown (bitId : String) : String :=
  "Unknown bit referenced in gate: " ++ sq ++ bitId ++ sq

/-! ## Lexical line filter -/

/-- `_getSanitizedLines`: split into lines, strip comments, trim, drop
empties. -/
def sanitizeLines (text : String) : List String :=
  ((sSplit (fun c => c = '\n') text).map
    (fun l => sTrim (String.mk (beforeComment l.data)))).filter
    (fun l => l ≠ "")

/-! ## Bit extraction (`_extractBits` of `graph.js`) -/

/-- Create the `count` bit records `name0 … name(count-1)` of the given
kind, in index order (the declaration loop body). -/
def declareBits (bits : Bits) (kind : String) (name : String) (count : Nat) :
    Bits :=
  (List.range count).foldl
    (fun b i =>
      let bitId := name ++ Nat.repr i
      insertBit b bitId
        { id := bitId, type := kind, name := bitId, lastGateConnected := none })
    bits

/-- Process one line of the declaration pass of `graph.js`. -/
def extractBitsLine (bits : Bits) (line : String) : Bits :=
  if sStartsWith line ("qreg") then
    match matchDecl ("qreg") line with
    | some (name, size) => declareBits bits ("qubit") name size
    | none => bits
  else if sStartsWith line ("creg") then
    match matchDecl ("creg") line with
    | some (name, size) => declareBits bits ("classical_bit") name size
    | none => bits
  else bits

/-- `_extractBits`: fold the declaration pass over all sanitized lines. -/
def extractBits (lines : List String) : Bits :=
  lines.foldl extractBitsLine []

/-! ## Gate classification and application -/

/-- What a recognized instruction line specifies: node type, display name,
optional parameter string, and the operand bit ids in resolution order. -/
structure GateSpec where
  type : String
  name : String
  info : Option String
  ops : List String
deriving Repr, DecidableEq

/-- Is the line one of the skipped metadata / declaration lines of
`_buildGraph`? -/
def skipLine (l : String) : Bool :=
  sStartsWith l ("OPENQASM") || sStartsWith l ("include") ||
  sStartsWith l ("qreg") || sStartsWith l ("creg")

/-- Tokenize a plain (parenthesis-free) line: split on `[,\s]+`, trim, drop
empties. -/
def tokenizePlain (l : String) : List String :=
  ((sSplit (fun c => c = ',' || isWsChar c) l).map sTrim).filter
    (fun s => s ≠ "")

/-- Split a parenthesized line on `(` and `)` (JavaScript
`split(/[()]/)`). -/
def splitParens (l : String) : List String :=
  sSplit (fun c => c = '(' || c = ')') l

/-- Classify a non-skipped line, mirroring the branch structure of
`_buildGraph` and the token extraction of the five handlers: a
`MalformedBitReferenceError` when a recognized shape has a bad operand
token, `none` when no shape matches (silent skip), or the gate to
create. -/
def lineVerdict (l : String) : Except BuildError (Option GateSpec) :=
  if sContainsChar l '(' && sContainsChar l ')' then
    match splitParens l with
    | [p0, p1, p2] =>
      let gateName := sTrim p0
      let gateInfo := sTrim p1
      let bitToken := stripSemi (sTrim p2)
      match getBitInfo bitToken with
      | none => .error (.malformedBit (msgTok bitToken))
      | some (reg, idx) =>
        .ok (some { type := "one_quit_gate", name := gateName,
                    info := some gateInfo, ops := [reg ++ idx] })
    | [p0, p1, p2, p3] =>
      let gateName := sTrim p0
      let gateInfo := sTrim p1
      let t1 := stripCommaSemi (sTrim p2)
      let t2 := stripSemi (sTrim p3)
      match getBitInfo t1, getBitInfo t2 with
      | some (r1, i1), some (r2, i2) =>
        .ok (some { type := "two_qubit_gate", name := gateName,
                    info := some gateInfo, ops := [r1 ++ i1, r2 ++ i2] })
      | _, _ => .error (.malformedBit (msgLine l))
    | _ => .ok none
  else
    match tokenizePlain l with
    | [p0, p1] =>
      let bitToken := stripSemi p1
      match getBitInfo bitToken with
      | none => .error (.malformedBit (msgTok bitToken))
      | some (reg, idx) =>
        .ok (some { type := "single_qubit_gate", name := p0,
                    info := none, ops := [reg ++ idx] })
    | [p0, p1, p2] =>
      let t1 := stripCommaSemi p1
      let t2 := stripSemi p2
      match getBitInfo t1, getBitInfo t2 with
      | some (r1, i1), some (r2, i2) =>
        .ok (some { type := "two_qubit_gate", name := p0,
                    info := none, ops := [r1 ++ i1, r2 ++ i2] })
      | _, _ => .error (.malformedBit (msgLine l))
    | [p0, p1, p2, p3] =>
      if p0 = "measure" then
        let tq := stripCommaSemi p1
        let tc := stripSemi p3
        match getBitInfo tq, getBitInfo tc with
        | some (r1, i1), some (r2, i2) =>
          .ok (some { type := "measurement", name := "measure",
                      info := none, ops := [r1 ++ i1, r2 ++ i2] })
        | _, _ =>
          .error (.malformedBit
            (msgMeasure (p0 ++ " " ++ p1 ++ " " ++ p2 ++ " " ++ p3)))
      else .ok none
    | _ => .ok none

/-- The gate id for counter value `n`: `g_<n>`. -/
def gid (n : Nat) : String :=
  "g_" ++ Nat.repr n

/-- `_registerGateOnBit`: look up the bit, fail with the unknown-bit error
if absent; otherwise return the edge source (last writer, or the bit
itself) and record the new writer. -/
def registerGateOnBit (bits : Bits) (bitId gateId : String) :
    Except BuildError (String × Bits) :=
  match lookupBits bits bitId with
  | none => .error (.unknownBit (msgUnknown bitId))
  | some b =>
    .ok (b.lastGateConnected.getD bitId,
      insertBit bits bitId { b with lastGateConnected := some gateId })

/-- Resolve the operand list left to right, producing one edge per operand
and the updated registry. -/
def resolveOps (bits : Bits) (gateId : String) :
    List String → Except BuildError (List Edge × Bits)
  | [] => .ok ([], bits)
  | o :: rest =>
    match registerGateOnBit bits o gateId with
    | .error e => .error e
    | .ok (src, bits1) =>
      match resolveOps bits1 gateId rest with
      | .error e => .error e
      | .ok (es, bits2) =>
        .ok (({ source := src, target := gateId } : Edge) :: es, bits2)

/-- The common action of the five gate handlers: allocate the next gate id,
resolve every operand into an edge, and append the edges and the new gate
node to the live graph. -/
def applyGate (bits : Bits) (gc : Nat) (g : Graph) (spec : GateSpec) :
    Except BuildError (Bits × Nat × Graph) :=
  let gateId := gid gc
  match resolveOps bits gateId spec.ops with
  | .error e => .error e
  | .ok (es, bits1) =>
    .ok (bits1, gc + 1,
      { nodes := g.nodes ++
          [{ id := gateId, type := spec.type, name := spec.name,
             info := spec.info }],
        edges := g.edges ++ es })

/-! ## The build loop -/

/-- The mutable state of one parse: the registry, the gate id counter, the
live graph, the instruction line counter, and the timestamp sequence. -/
structure St where
  bits : Bits
  gateIdCounter : Nat
  graph : Graph
  lineCounter : Nat
  timestamps : List (Nat × Graph)
deriving DecidableEq

/-- One iteration of the `_buildGraph` loop on a sanitized line. -/
def stepLine (s : St) (l : String) : Except BuildError St :=
  if skipLine l then .ok s
  else
    match lineVerdict l with
    | .error e => .error e
    | .ok none => .ok { s with lineCounter := s.lineCounter + 1 }
    | .ok (some spec) =>
      match applyGate s.bits s.gateIdCounter s.graph spec with
      | .error e => .error e
      | .ok (bits1, gc1, g1) =>
        .ok { bits := bits1, gateIdCounter := gc1, graph := g1,
              lineCounter := s.lineCounter + 1,
              timestamps :=
                s.timestamps ++ [(s.lineCounter + 1, cloneGraph g1)] }

/-- Run the instruction loop over a list of lines. -/
def runLines (s : St) : List String → Except BuildError St
  | [] => .ok s
  | l :: rest =>
    match stepLine s l with
    | .error e => .error e
    | .ok s1 => runLines s1 rest

/-- The state after the declaration pass and the `timestamps[0]`
snapshot, before the first instruction line. -/
def initState (lines : List String) : St :=
  let bits := extractBits lines
  let g0 : Graph :=
    { nodes := bits.map (fun p => { id := p.2.id, type := p.2.type,
                                    name := p.2.name, info := none }),
      edges := [] }
  { bits := bits, gateIdCounter := 0, graph := g0, lineCounter := 0,
    timestamps := [(0, cloneGraph g0)] }

/-- The full build: declaration pass, then the instruction loop; returns
the final parse state or the aborting error. -/
def buildFinalState (text : String) : Except BuildError St :=
  let lines := sanitizeLines text
  runLines (initState lines) lines

/-- `QasmParser.parse` of `graph.js`: the timestamp sequence of a build, or
the error that aborted it (in which case no sequence is produced). -/
def parse (text : String) : Except BuildError (List (Nat × Graph)) :=
  match buildFinalState text with
  | .error e => .error e
  | .ok s => .ok s.timestamps

/-! ## The `parser.js` registry variant (`QASM_Parser.getBits`) -/

/-- Process one line of the declaration pass of `parser.js`: the register
name pattern is `\w+` and is not captured; the created ids use the fixed
prefixes `q` / `c`. -/
def parserJsGetBitsLine (bits : Bits) (line : String) : Bits :=
  let bits1 :=
    if sStartsWith line ("qreg") then
      match matchDeclW ("qreg") line with
      | some (_, size) => declareBits bits ("qubit") ("q") size
      | none => bits
    else bits
  if sStartsWith line ("creg") then
    match matchDeclW ("creg") line with
    | some (_, size) => declareBits bits1 ("classical_bit") ("c") size
    | none => bits1
  else bits1

/-- `QASM_Parser.getBits` of `parser.js`: its declaration pass over the
sanitized lines of the input text. -/
def parserJsGetBits (text : String) : Bits :=
  (sanitizeLines text).foldl parserJsGetBitsLine []

end Qasm

namespace Qasm

/-! ## Decimal representation: `Nat.repr` is injective -/

/-- The decimal digit list of a natural number, most significant first. -/
def decSpec (n : Nat) : List Char :=
  if h : n < 10 then [Nat.digitChar n]
  else decSpec (n / 10) ++ [Nat.digitChar (n % 10)]
decreasing_by
  exact Nat.div_lt_self (by omega) (by omega)

theorem toDigitsCore_eq_decSpec :
    ∀ fuel n acc, n < fuel →
      Nat.toDigitsCore 10 fuel n acc = decSpec n ++ acc := by
  intro fuel
  induction fuel with
  | zero => intro n acc h; omega
  | succ f ih =>
    intro n acc h
    show (if n / 10 = 0 then Nat.digitChar (n % 10) :: acc
          else Nat.toDigitsCore 10 f (n / 10) (Nat.digitChar (n % 10) :: acc))
        = decSpec n ++ acc
    by_cases h10 : n < 10
    · have hdiv : n / 10 = 0 := Nat.div_eq_of_lt h10
      rw [if_pos hdiv]
      rw [decSpec, dif_pos h10, Nat.mod_eq_of_lt h10]
      rfl
    · have hdiv : n / 10 ≠ 0 := by
        intro hc
        have := Nat.div_eq_of_lt (show n < 10 by
          have := Nat.div_add_mod n 10
          omega)
        omega
      rw [if_neg hdiv]
      have hlt : n / 10 < f := by
        have h1 : n / 10 < n := Nat.div_lt_self (by omega) (by omega)
        omega
      rw [ih (n / 10) (Nat.digitChar (n % 10) :: acc) hlt]
      conv_rhs => rw [decSpec]
      rw [dif_neg h10]
      simp

/-- Evaluate a digit list back into a number. -/
def valAux (a : Nat) : List Char → Nat
  | [] => a
  | c :: r => valAux (a * 10 + (c.toNat - 48)) r

theorem valAux_append (a : Nat) (l1 l2 : List Char) :
    valAux a (l1 ++ l2) = valAux (valAux a l1) l2 := by
  induction l1 generalizing a with
  | nil => rfl
  | cons c r ih => exact ih (a * 10 + (c.toNat - 48))

theorem digitChar_toNat (d : Nat) (h : d < 10) :
    (Nat.digitChar d).toNat - 48 = d := by
  interval_cases d <;> rfl

theorem valAux_decSpec (n : Nat) : ∀ a, valAux a (decSpec n) = a * 10 ^ (decSpec n).length + n := by
  induction n using Nat.strong_induction_on with
  | _ n ih =>
    intro a
    by_cases h : n < 10
    · rw [decSpec, dif_pos h]
      show a * 10 + ((Nat.digitChar n).toNat - 48) = _
      rw [digitChar_toNat n h]
      norm_num
    · rw [decSpec, dif_neg h]
      rw [valAux_append]
      have hlt : n / 10 < n := Nat.div_lt_self (by omega) (by omega)
      rw [ih (n / 10) hlt a]
      show (a * 10 ^ (decSpec (n / 10)).length + n / 10) * 10 +
          ((Nat.digitChar (n % 10)).toNat - 48) = _
      rw [digitChar_toNat (n % 10) (Nat.mod_lt n (by omega))]
      simp only [List.length_append, List.length_cons, List.length_nil]
      rw [pow_succ]
      have := Nat.div_add_mod n 10
      ring_nf
      omega

theorem decSpec_injective : Function.Injective decSpec := by
  intro a b h
  have ha := valAux_decSpec a 0
  have hb := valAux_decSpec b 0
  rw [h] at ha
  simp only [Nat.zero_mul, Nat.zero_add] at ha hb
  omega

theorem natRepr_injective : Function.Injective Nat.repr := by
  intro a b h
  unfold Nat.repr at h
  have h2 : Nat.toDigits 10 a = Nat.toDigits 10 b := by
    have := congrArg String.data h
    simpa [List.asString] using this
  unfold Nat.toDigits at h2
  rw [toDigitsCore_eq_decSpec (a + 1) a [] (by omega),
      toDigitsCore_eq_decSpec (b + 1) b [] (by omega)] at h2
  simp only [List.append_nil] at h2
  exact decSpec_injective h2

theorem gid_injective : Function.Injective gid := by
  intro a b h
  unfold gid at h
  have hd := congrArg String.data h
  simp only [String.data_append] at hd
  have : (Nat.repr a).data = (Nat.repr b).data :=
    List.append_cancel_left hd
  exact natRepr_injective (String.ext this)

end Qasm

deriving instance DecidableEq for Except

namespace Qasm

/-! ## Step characterization lemmas -/

/-- The state change shared by every successful gate handler: install the
new registry, counter and graph, advance the line counter, and store a
snapshot under it. -/
def advanceState (s : St) (t : Bits × Nat × Graph) : St :=
  { bits := t.1, gateIdCounter := t.2.1, graph := t.2.2,
    lineCounter := s.lineCounter + 1,
    timestamps := s.timestamps ++ [(s.lineCounter + 1, cloneGraph t.2.2)] }

theorem stepLine_skip {s : St} {l : String} (h : skipLine l = true) :
    stepLine s l = .ok s := by
  simp [stepLine, h]

theorem stepLine_unrecognized {s : St} {l : String}
    (h1 : skipLine l = false) (h2 : lineVerdict l = .ok none) :
    stepLine s l = .ok { s with lineCounter := s.lineCounter + 1 } := by
  simp [stepLine, h1, h2]

theorem stepLine_error {s : St} {l : String} {e : BuildError}
    (h1 : skipLine l = false) (h2 : lineVerdict l = .error e) :
    stepLine s l = .error e := by
  simp [stepLine, h1, h2]

theorem stepLine_gate {s : St} {l : String} {spec : GateSpec}
    (h1 : skipLine l = false) (h2 : lineVerdict l = .ok (some spec)) :
    stepLine s l =
      (applyGate s.bits s.gateIdCounter s.graph spec).map (advanceState s) := by
  simp only [stepLine, h1, Bool.false_eq_true, if_false, h2]
  cases happ : applyGate s.bits s.gateIdCounter s.graph spec with
  | error e => rfl
  | ok t => rfl

/-- Case analysis of a successful step. -/
theorem stepLine_ok_cases {s s' : St} {l : String}
    (h : stepLine s l = .ok s') :
    (skipLine l = true ∧ s' = s) ∨
    (skipLine l = false ∧ lineVerdict l = .ok none ∧
      s' = { s with lineCounter := s.lineCounter + 1 }) ∨
    (∃ spec t, skipLine l = false ∧ lineVerdict l = .ok (some spec) ∧
      applyGate s.bits s.gateIdCounter s.graph spec = .ok t ∧
      s' = advanceState s t) := by
  by_cases hs : skipLine l = true
  · left
    refine ⟨hs, ?_⟩
    rw [stepLine_skip hs] at h
    exact (Except.ok.inj h).symm
  · have hs' : skipLine l = false := by
      cases hb : skipLine l
      · rfl
      · exact absurd hb hs
    cases hv : lineVerdict l with
    | error e => rw [stepLine_error hs' hv] at h; cases h
    | ok o =>
      cases o with
      | none =>
        right; left
        rw [stepLine_unrecognized hs' hv] at h
        exact ⟨hs', rfl, (Except.ok.inj h).symm⟩
      | some spec =>
        right; right
        rw [stepLine_gate hs' hv] at h
        cases happ : applyGate s.bits s.gateIdCounter s.graph spec with
        | error e => rw [happ] at h; cases h
        | ok t =>
          rw [happ] at h
          exact ⟨spec, t, hs', rfl, happ, (Except.ok.inj h).symm⟩

theorem runLines_cons (s : St) (l : String) (rest : List String) :
    runLines s (l :: rest) =
      match stepLine s l with
      | .error e => .error e
      | .ok s1 => runLines s1 rest := by
  rfl

theorem runLines_append (s : St) (l1 l2 : List String) :
    runLines s (l1 ++ l2) =
      match runLines s l1 with
      | .error e => .error e
      | .ok s1 => runLines s1 l2 := by
  induction l1 generalizing s with
  | nil => rfl
  | cons l r ih =>
    rw [List.cons_append, runLines_cons, runLines_cons]
    cases hst : stepLine s l with
    | error e => rfl
    | ok s1 => exact ih s1

/-! ## Concrete inputs used by the claims -/

/-- The worked example input of the specification. -/
def exampleC1Input : String :=
  "qreg q[2];\ncreg c[1];\nh q[0];\ncx q[0],q[1];\nmeasure q[1] -> c[0];"

/-- The three bit nodes declared by the example. -/
def exC1BitNodes : List Node :=
  [{ id := "q0", type := "qubit", name := "q0", info := none },
   { id := "q1", type := "qubit", name := "q1", info := none },
   { id := "c0", type := "classical_bit", name := "c0", info := none }]

/-- The full timestamp sequence the example builds. -/
def exC1 : List (Nat × Graph) :=
  [(0, { nodes := exC1BitNodes, edges := [] }),
   (1, { nodes := exC1BitNodes ++
          [{ id := "g_0", type := "single_qubit_gate", name := "h", info := none }],
         edges := [{ source := "q0", target := "g_0" }] }),
   (2, { nodes := exC1BitNodes ++
          [{ id := "g_0", type := "single_qubit_gate", name := "h", info := none },
           { id := "g_1", type := "two_qubit_gate", name := "cx", info := none }],
         edges := [{ source := "q0", target := "g_0" },
                   { source := "g_0", target := "g_1" },
                   { source := "q1", target := "g_1" }] }),
   (3, { nodes := exC1BitNodes ++
          [{ id := "g_0", type := "single_qubit_gate", name := "h", info := none },
           { id := "g_1", type := "two_qubit_gate", name := "cx", info := none },
           { id := "g_2", type := "measurement", name := "measure", info := none }],
         edges := [{ source := "q0", target := "g_0" },
                   { source := "g_0", target := "g_1" },
                   { source := "q1", target := "g_1" },
                   { source := "g_1", target := "g_2" },
                   { source := "c0", target := "g_2" }] })]

/-- Snapshot 1 of the worked example: the three declared bits, the gate
node g_0, and the single edge (q0, g_0). -/
def exC1Snap1 : Graph :=
  { nodes := exC1BitNodes ++
      [{ id := "g_0", type := "single_qubit_gate", name := "h", info := none }],
    edges := [{ source := "q0", target := "g_0" }] }

/-- Claim C1: on the worked example input, the build returns the timestamp
sequence with time-keys exactly 0, 1, 2, 3; snapshot 1 holds exactly the
nodes q0, q1, c0, g_0 and the single edge (q0, g_0); and snapshot 3
additionally holds the measurement node g_2 with the edges (g_1, g_2) and
(c0, g_2). -/
theorem claim_C1 :
    parse exampleC1Input = Except.ok exC1 ∧
    exC1.map Prod.fst = [0, 1, 2, 3] ∧
    List.lookup 1 exC1 = some exC1Snap1 ∧
    (∀ p ∈ exC1, p.1 = 3 →
      ({ id := "g_2", type := "measurement", name := "measure", info := none } :
        Node) ∈ p.2.nodes ∧
      ({ source := "g_1", target := "g_2" } : Edge) ∈ p.2.edges ∧
      ({ source := "c0", target := "g_2" } : Edge) ∈ p.2.edges ∧
      (∀ n, n ∈ exC1Snap1.nodes → n ∈ p.2.nodes)) := by
  decide

end Qasm

namespace Qasm

/-! ## Claim C2: the two measurement styles -/

/-- A comma-style measurement input: the spec claims this is recognized as
the 4-token measurement shape. -/
def c2Input : String := "qreg q[1];\ncreg c[1];\nmeasure q[0], c[0];"

/-- Counterexample to claim C2: in the comma style the comma is a split
delimiter, so `measure q[0], c[0];` tokenizes to only 3 parts and is
handled as a plain two-operand gate; the build succeeds with a node of
type `two_qubit_gate` named `measure` and no node of type `measurement`
anywhere in the output. -/
theorem claim_C2_counterexample :
    tokenizePlain "measure q[0], c[0];" = ["measure", "q[0]", "c[0];"] ∧
    (parse c2Input).map
        (fun ts => ts.map (fun p => (p.1, p.2.nodes.map (fun n => (n.id, n.type))))) =
      Except.ok
        [(0, [("q0", "qubit"), ("c0", "classical_bit")]),
         (1, [("q0", "qubit"), ("c0", "classical_bit"),
              ("g_0", "two_qubit_gate")])] ∧
    (∀ ts, parse c2Input = Except.ok ts →
      ∀ p ∈ ts, ∀ n ∈ p.2.nodes, n.type ≠ "measurement") := by
  refine ⟨by decide, by decide, ?_⟩
  intro ts hts
  have hp : parse c2Input = Except.ok
      [(0, { nodes := [{ id := "q0", type := "qubit", name := "q0", info := none },
                       { id := "c0", type := "classical_bit", name := "c0", info := none }],
             edges := [] }),
       (1, { nodes := [{ id := "q0", type := "qubit", name := "q0", info := none },
                       { id := "c0", type := "classical_bit", name := "c0", info := none },
                       { id := "g_0", type := "two_qubit_gate", name := "measure", info := none }],
             edges := [{ source := "q0", target := "g_0" },
                       { source := "c0", target := "g_0" }] })] := by
    decide
  rw [hp] at hts
  cases Except.ok.inj hts
  decide

/-- Claim C2 (amended): a 4-token `measure` line — the arrow style — is
handled as a measurement: the engine invokes the measurement handler with
the bit tokens at positions 1 and 3 (position 2 discarded) and, on
success, appends exactly one node, of type `measurement`. A comma-style
`measure q, c;` line instead tokenizes to only 3 parts, because the comma
is a split delimiter, and is handled as a plain two-operand gate whose
operands are the tokens at positions 1 and 2; on success it appends one
node of type `two_qubit_gate`, not `measurement`. -/
theorem claim_C2_amended :
    (∀ (s : St) (l w1 w2 w3 : String) (r1 i1 r2 i2 : String),
      skipLine l = false →
      (sContainsChar l '(' && sContainsChar l ')') = false →
      tokenizePlain l = ["measure", w1, w2, w3] →
      getBitInfo (stripCommaSemi w1) = some (r1, i1) →
      getBitInfo (stripSemi w3) = some (r2, i2) →
      stepLine s l =
        (applyGate s.bits s.gateIdCounter s.graph
          { type := "measurement", name := "measure", info := none,
            ops := [r1 ++ i1, r2 ++ i2] }).map (advanceState s) ∧
      (∀ s', stepLine s l = .ok s' →
        s'.graph.nodes = s.graph.nodes ++
          [{ id := gid s.gateIdCounter, type := "measurement",
             name := "measure", info := none }])) ∧
    (∀ (s : St) (l w0 w1 w2 : String) (r1 i1 r2 i2 : String),
      skipLine l = false →
      (sContainsChar l '(' && sContainsChar l ')') = false →
      tokenizePlain l = [w0, w1, w2] →
      getBitInfo (stripCommaSemi w1) = some (r1, i1) →
      getBitInfo (stripSemi w2) = some (r2, i2) →
      stepLine s l =
        (applyGate s.bits s.gateIdCounter s.graph
          { type := "two_qubit_gate", name := w0, info := none,
            ops := [r1 ++ i1, r2 ++ i2] }).map (advanceState s) ∧
      (∀ s', stepLine s l = .ok s' →
        s'.graph.nodes = s.graph.nodes ++
          [{ id := gid s.gateIdCounter, type := "two_qubit_gate",
             name := w0, info := none }])) := by
  constructor
  · intro s l w1 w2 w3 r1 i1 r2 i2 hskip hparen htok h1 h2
    have hv : lineVerdict l = .ok (some
        { type := "measurement", name := "measure", info := none,
          ops := [r1 ++ i1, r2 ++ i2] }) := by
      rw [lineVerdict, hparen, if_neg (by simp), htok]
      simp [h1, h2]
    have hstep := stepLine_gate (s := s) hskip hv
    refine ⟨hstep, ?_⟩
    intro s' hok
    rw [hstep] at hok
    cases happ : applyGate s.bits s.gateIdCounter s.graph
        { type := "measurement", name := "measure", info := none,
          ops := [r1 ++ i1, r2 ++ i2] } with
    | error e => rw [happ] at hok; cases hok
    | ok t =>
      rw [happ] at hok
      have hs' : s' = advanceState s t := (Except.ok.inj hok).symm
      subst hs'
      rw [applyGate] at happ
      cases hres : resolveOps s.bits (gid s.gateIdCounter)
          [r1 ++ i1, r2 ++ i2] with
      | error e => rw [hres] at happ; cases happ
      | ok p =>
        rw [hres] at happ
        have := Except.ok.inj happ
        rw [← this]
        rfl
  · intro s l w0 w1 w2 r1 i1 r2 i2 hskip hparen htok h1 h2
    have hv : lineVerdict l = .ok (some
        { type := "two_qubit_gate", name := w0, info := none,
          ops := [r1 ++ i1, r2 ++ i2] }) := by
      rw [lineVerdict, hparen, if_neg (by simp), htok]
      simp [h1, h2]
    have hstep := stepLine_gate (s := s) hskip hv
    refine ⟨hstep, ?_⟩
    intro s' hok
    rw [hstep] at hok
    cases happ : applyGate s.bits s.gateIdCounter s.graph
        { type := "two_qubit_gate", name := w0, info := none,
          ops := [r1 ++ i1, r2 ++ i2] } with
    | error e => rw [happ] at hok; cases hok
    | ok t =>
      rw [happ] at hok
      have hs' : s' = advanceState s t := (Except.ok.inj hok).symm
      subst hs'
      rw [applyGate] at happ
      cases hres : resolveOps s.bits (gid s.gateIdCounter)
          [r1 ++ i1, r2 ++ i2] with
      | error e => rw [hres] at happ; cases happ
      | ok p =>
        rw [hres] at happ
        have := Except.ok.inj happ
        rw [← this]
        rfl

end Qasm

namespace Qasm

/-- The post-declaration state for a one-qubit, one-classical-bit
program, used to exercise the step lemmas on concrete lines. -/
def demoState : St := initState ["qreg q[1];", "creg c[1];"]

/-- Witness for the amended claim C2, at the concrete arrow-style line
`measure q[0] -> c[0];` and the concrete comma-style line
`measure q[0], c[0];` run from the demo state. -/
theorem claim_C2_amended_witness :
    (stepLine demoState "measure q[0] -> c[0];" =
      (applyGate demoState.bits demoState.gateIdCounter demoState.graph
        { type := "measurement", name := "measure", info := none,
          ops := ["q" ++ "0", "c" ++ "0"] }).map (advanceState demoState) ∧
      (∀ s', stepLine demoState "measure q[0] -> c[0];" = .ok s' →
        s'.graph.nodes = demoState.graph.nodes ++
          [{ id := gid demoState.gateIdCounter, type := "measurement",
             name := "measure", info := none }])) ∧
    (stepLine demoState "measure q[0], c[0];" =
      (applyGate demoState.bits demoState.gateIdCounter demoState.graph
        { type := "two_qubit_gate", name := "measure", info := none,
          ops := ["q" ++ "0", "c" ++ "0"] }).map (advanceState demoState) ∧
      (∀ s', stepLine demoState "measure q[0], c[0];" = .ok s' →
        s'.graph.nodes = demoState.graph.nodes ++
          [{ id := gid demoState.gateIdCounter, type := "two_qubit_gate",
             name := "measure", info := none }])) :=
  ⟨claim_C2_amended.1 demoState ("measure q[0] -> c[0];") ("q[0]") ("->")
      ("c[0];") ("q") ("0") ("c") ("0") (by decide) (by decide) (by decide)
      (by decide) (by decide),
   claim_C2_amended.2 demoState ("measure q[0], c[0];") ("measure") ("q[0]")
      ("c[0];") ("q") ("0") ("c") ("0") (by decide) (by decide) (by decide)
      (by decide) (by decide)⟩

end Qasm

namespace Qasm

/-! ## Lemmas on the declaration matcher -/

theorem string_data_append (a b : String) : (a ++ b).data = a.data ++ b.data :=
  rfl

theorem string_append_cancel_left (a : String) {b c : String}
    (h : a ++ b = a ++ c) : b = c := by
  apply String.ext
  have hd := congrArg String.data h
  rw [string_data_append, string_data_append] at hd
  exact List.append_cancel_left hd

theorem isPrefixOf_append_self (l1 l2 : List Char) :
    l1.isPrefixOf (l1 ++ l2) = true := by
  induction l1 with
  | nil => simp [List.isPrefixOf]
  | cons a as ih => simp [List.isPrefixOf, ih]

theorem takeWhile_boundary {p : Char → Bool} (l1 l2 : List Char) (x : Char)
    (h1 : ∀ c ∈ l1, p c = true) (h2 : p x = false) :
    (l1 ++ x :: l2).takeWhile p = l1 ∧ (l1 ++ x :: l2).dropWhile p = x :: l2 := by
  induction l1 with
  | nil => simp [List.takeWhile, List.dropWhile, h2]
  | cons c r ih =>
    have hc : p c = true := h1 c (by simp)
    have hr : ∀ c ∈ r, p c = true := fun c hm => h1 c (by simp [hm])
    obtain ⟨iht, ihd⟩ := ih hr
    constructor
    · simp [List.takeWhile, hc, iht]
    · simp [List.dropWhile, hc, ihd]

theorem wordChar_not_ws {c : Char} (h : isWordChar c = true) :
    isWsChar c = false := by
  simp only [isWordChar, isLetterChar, isDigitChar, isWsChar,
    Bool.or_eq_true, Bool.and_eq_true, decide_eq_true_eq] at *
  simp only [Bool.or_eq_false_iff, Bool.and_eq_false_iff,
    decide_eq_false_iff_not]
  omega

theorem letterOrUnderscore_word {c : Char}
    (h : (isLetterChar c || c.toNat = 95) = true) : isWordChar c = true := by
  simp only [isWordChar, Bool.or_eq_true] at *
  rcases h with h | h
  · exact Or.inl (Or.inl h)
  · exact Or.inr h

theorem digit_word {c : Char} (h : isDigitChar c = true) :
    isWordChar c = true := by
  simp only [isWordChar, Bool.or_eq_true]
  exact Or.inl (Or.inr h)

/-- The declaration pattern matcher succeeds on a well-formed declaration
tail placed directly after the keyword. -/
theorem tryDeclAt_exact (kw : List Char) (startP : Char → Bool)
    (c0 : Char) (rest d tail : List Char)
    (hstart : startP c0 = true)
    (hc0w : isWordChar c0 = true)
    (hword : ∀ c ∈ rest, isWordChar c = true)
    (hd : d ≠ []) (hdig : ∀ c ∈ d, isDigitChar c = true) :
    tryDeclAt kw startP (kw ++ ' ' :: ((c0 :: rest) ++ '[' :: (d ++ ']' :: tail))) =
      some (String.mk (c0 :: rest), natOfDigits d) := by
  have hpre := isPrefixOf_append_self kw (' ' :: ((c0 :: rest) ++ '[' :: (d ++ ']' :: tail)))
  have hws : (' ' :: ((c0 :: rest) ++ '[' :: (d ++ ']' :: tail))).takeWhile isWsChar = [' '] ∧
      (' ' :: ((c0 :: rest) ++ '[' :: (d ++ ']' :: tail))).dropWhile isWsChar =
        c0 :: (rest ++ '[' :: (d ++ ']' :: tail)) := by
    have := takeWhile_boundary (p := isWsChar) [' '] (rest ++ '[' :: (d ++ ']' :: tail)) c0
      (by intro c hm; simp at hm; subst hm; rfl)
      (wordChar_not_ws hc0w)
    simpa using this
  have hname := takeWhile_boundary (p := isWordChar) rest (d ++ ']' :: tail) '['
    hword (by decide)
  have hdg := takeWhile_boundary (p := isDigitChar) d tail ']' hdig (by decide)
  have hdne : d.isEmpty = false := by
    cases d with
    | nil => exact absurd rfl hd
    | cons a b => rfl
  simp only [tryDeclAt, hpre, if_true, List.drop_left, hws.1, hws.2,
    List.isEmpty_cons, Bool.false_eq_true, if_false, hstart, hname.1,
    hname.2, hdg.1, hdg.2, hdne]

theorem declScan_cons_hit {kw : List Char} {startP : Char → Bool}
    {c : Char} {r : List Char} {x : String × Nat}
    (h : tryDeclAt kw startP (c :: r) = some x) :
    declScan kw startP (c :: r) = some x := by
  rw [declScan, h]

end Qasm

namespace Qasm

/-! ## Declaration lines and the registry -/

/-- A canonical declaration line `kw name[d];`. -/
def declLine (kw name d : String) : String :=
  kw ++ " " ++ name ++ "[" ++ d ++ "];"

theorem declLine_data (kw name d : String) :
    (declLine kw name d).data =
      kw.data ++ ' ' :: (name.data ++ '[' :: (d.data ++ ']' :: [';'])) := by
  simp [declLine, string_data_append, List.append_assoc]

/-- The declaration matcher finds the name and size of a canonical
declaration line. -/
theorem declScan_declLine (kw : String) (startP : Char → Bool)
    (k0 : Char) (kr : List Char) (c0 : Char) (rest d : List Char)
    (hkw : kw.data = k0 :: kr)
    (hstart : startP c0 = true)
    (hc0w : isWordChar c0 = true)
    (hword : ∀ c ∈ rest, isWordChar c = true)
    (hd : d ≠ []) (hdig : ∀ c ∈ d, isDigitChar c = true) :
    declScan kw.data startP (declLine kw (String.mk (c0 :: rest)) (String.mk d)).data =
      some (String.mk (c0 :: rest), natOfDigits d) := by
  have hdata : (declLine kw (String.mk (c0 :: rest)) (String.mk d)).data =
      kw.data ++ ' ' :: ((c0 :: rest) ++ '[' :: (d ++ ']' :: [';'])) := by
    rw [declLine_data]
  have htry := tryDeclAt_exact kw.data startP c0 rest d [';']
    hstart hc0w hword hd hdig
  rw [hdata, hkw]
  rw [hkw] at htry
  exact declScan_cons_hit htry

theorem matchDecl_declLine (kw : String)
    (k0 : Char) (kr : List Char) (c0 : Char) (rest d : List Char)
    (hkw : kw.data = k0 :: kr)
    (hstart : (isLetterChar c0 || c0.toNat = 95) = true)
    (hword : ∀ c ∈ rest, isWordChar c = true)
    (hd : d ≠ []) (hdig : ∀ c ∈ d, isDigitChar c = true) :
    matchDecl kw (declLine kw (String.mk (c0 :: rest)) (String.mk d)) =
      some (String.mk (c0 :: rest), natOfDigits d) :=
  declScan_declLine kw _ k0 kr c0 rest d hkw hstart
    (letterOrUnderscore_word hstart) hword hd hdig

theorem matchDeclW_declLine (kw : String)
    (k0 : Char) (kr : List Char) (c0 : Char) (rest d : List Char)
    (hkw : kw.data = k0 :: kr)
    (hstart : isWordChar c0 = true)
    (hword : ∀ c ∈ rest, isWordChar c = true)
    (hd : d ≠ []) (hdig : ∀ c ∈ d, isDigitChar c = true) :
    matchDeclW kw (declLine kw (String.mk (c0 :: rest)) (String.mk d)) =
      some (String.mk (c0 :: rest), natOfDigits d) :=
  declScan_declLine kw _ k0 kr c0 rest d hkw hstart hstart hword hd hdig

theorem sStartsWith_declLine_self (kw name d : String) :
    sStartsWith (declLine kw name d) kw = true := by
  rw [sStartsWith, declLine_data]
  exact isPrefixOf_append_self kw.data _

/-! ## Registry lookup lemmas -/

theorem lookup_insertBit (bits : Bits) (k : String) (v : BitRec) (key : String) :
    lookupBits (insertBit bits k v) key =
      if key = k then some v else lookupBits bits key := by
  induction bits with
  | nil =>
    show (if k = key then some v else none) = _
    by_cases h : key = k
    · subst h
      rw [if_pos rfl, if_pos rfl]
    · rw [if_neg (fun hc => h hc.symm), if_neg h]
      rfl
  | cons p r ih =>
    obtain ⟨k0, v0⟩ := p
    show lookupBits (if k0 = k then (k, v) :: r else (k0, v0) :: insertBit r k v) key = _
    by_cases h0 : k0 = k
    · subst h0
      rw [if_pos rfl]
      show (if k0 = key then some v else lookupBits r key) = _
      by_cases h : key = k0
      · subst h
        rw [if_pos rfl, if_pos rfl]
      · rw [if_neg (fun hc => h hc.symm), if_neg h, lookupBits,
          if_neg (fun hc => h hc.symm)]
    · rw [if_neg h0]
      show (if k0 = key then some v0 else lookupBits (insertBit r k v) key) = _
      by_cases h : k0 = key
      · rw [if_pos h, lookupBits, if_pos h, if_neg (fun hc => h0 (h.trans hc))]
      · rw [if_neg h, ih, lookupBits, if_neg h]

theorem declareBits_succ (bits : Bits) (kind name : String) (n : Nat) :
    declareBits bits kind name (n + 1) =
      insertBit (declareBits bits kind name n) (name ++ Nat.repr n)
        { id := name ++ Nat.repr n, type := kind, name := name ++ Nat.repr n,
          lastGateConnected := none } := by
  rw [declareBits, declareBits, List.range_succ, List.foldl_append]
  rfl

theorem nat_suffix_inj {name : String} {i j : Nat}
    (h : name ++ Nat.repr i = name ++ Nat.repr j) : i = j :=
  natRepr_injective (string_append_cancel_left name h)

theorem declareBits_lookup_hit (bits : Bits) (kind name : String) :
    ∀ n i, i < n →
      lookupBits (declareBits bits kind name n) (name ++ Nat.repr i) =
        some { id := name ++ Nat.repr i, type := kind,
               name := name ++ Nat.repr i, lastGateConnected := none } := by
  intro n
  induction n with
  | zero => intro i h; omega
  | succ m ih =>
    intro i h
    rw [declareBits_succ, lookup_insertBit]
    by_cases hi : i = m
    · subst hi
      simp
    · rw [if_neg (fun hc => hi (nat_suffix_inj hc))]
      exact ih i (by omega)

theorem declareBits_lookup_miss (bits : Bits) (kind name : String) :
    ∀ n key, (∀ i, i < n → key ≠ name ++ Nat.repr i) →
      lookupBits (declareBits bits kind name n) key = lookupBits bits key := by
  intro n
  induction n with
  | zero => intro key _; rfl
  | succ m ih =>
    intro key hk
    rw [declareBits_succ, lookup_insertBit,
      if_neg (hk m (by omega))]
    exact ih key (fun i hi => hk i (by omega))

end Qasm

namespace Qasm

/-! ## Claim C3: the two id-construction schemes -/

theorem sStartsWith_creg_line_qreg (name d : String) :
    sStartsWith (declLine ("creg") name d) ("qreg") = false := by
  rw [sStartsWith, declLine_data]
  rfl

theorem sStartsWith_qreg_line_creg (name d : String) :
    sStartsWith (declLine ("qreg") name d) ("creg") = false := by
  rw [sStartsWith, declLine_data]
  rfl

/-- `_extractBits` of `graph.js` on a matching `qreg` line declares the
bits through `declareBits` with the register name. -/
theorem extractBitsLine_qreg (bits : Bits) (line : String) (name : String)
    (n : Nat)
    (h1 : sStartsWith line ("qreg") = true)
    (h2 : matchDecl ("qreg") line = some (name, n)) :
    extractBitsLine bits line = declareBits bits ("qubit") name n := by
  rw [extractBitsLine, if_pos h1, h2]

theorem extractBitsLine_creg (bits : Bits) (line : String) (name : String)
    (n : Nat)
    (h0 : sStartsWith line ("qreg") = false)
    (h1 : sStartsWith line ("creg") = true)
    (h2 : matchDecl ("creg") line = some (name, n)) :
    extractBitsLine bits line = declareBits bits ("classical_bit") name n := by
  rw [extractBitsLine, h0]
  simp only [Bool.false_eq_true, if_false]
  rw [if_pos h1, h2]

theorem parserJsLine_qreg (bits : Bits) (line : String) (name : String)
    (n : Nat)
    (h1 : sStartsWith line ("qreg") = true)
    (h0 : sStartsWith line ("creg") = false)
    (h2 : matchDeclW ("qreg") line = some (name, n)) :
    parserJsGetBitsLine bits line = declareBits bits ("qubit") ("q") n := by
  rw [parserJsGetBitsLine, if_pos h1, h2, h0]
  simp

theorem parserJsLine_creg (bits : Bits) (line : String) (name : String)
    (n : Nat)
    (h1 : sStartsWith line ("qreg") = false)
    (h0 : sStartsWith line ("creg") = true)
    (h2 : matchDeclW ("creg") line = some (name, n)) :
    parserJsGetBitsLine bits line = declareBits bits ("classical_bit") ("c") n := by
  rw [parserJsGetBitsLine, h1]
  simp only [Bool.false_eq_true, if_false]
  rw [if_pos h0, h2]

/-- Counterexample to claim C3: the `parser.js` registry
(`QASM_Parser.getBits`) processes the declaration line `qreg foo[1];` by
creating the bit id `q0` — the fixed keyword-derived prefix with the index
— and no bit `foo0` at all, contradicting the register-name-based id
scheme the claim states for every processed declaration line. -/
theorem claim_C3_counterexample :
    parserJsGetBits "qreg foo[1];" =
      [("q0", { id := "q0", type := "qubit", name := "q0",
                lastGateConnected := none })] ∧
    lookupBits (parserJsGetBits "qreg foo[1];") "foo0" = none := by
  constructor
  · decide
  · decide

/-- Claim C3 (amended): the two parser variants use different id schemes.
For every processed declaration line `qreg name[d];` or `creg name[d];`
(`name` a `[a-zA-Z_]\w*` register name, `d` a non-empty digit string of
value n), the `graph.js` registry (`_extractBits`) creates exactly the n
bits `name0 … name(n-1)` — register name concatenated with each index — of
kind `qubit` for `qreg` and `classical_bit` for `creg`, each with an unset
last-writer, leaving every other key unchanged; the `parser.js` registry
(`QASM_Parser.getBits`) instead ignores the register name and creates the
bits `q0 … q(n-1)` (for `qreg`) or `c0 … c(n-1)` (for `creg`). -/
theorem claim_C3_amended (c0 : Char) (rest d : List Char)
    (hstart : (isLetterChar c0 || c0.toNat = 95) = true)
    (hword : ∀ c ∈ rest, isWordChar c = true)
    (hd : d ≠ []) (hdig : ∀ c ∈ d, isDigitChar c = true) :
    ∀ bits : Bits,
      (∀ i, i < natOfDigits d →
        lookupBits
          (extractBitsLine bits
            (declLine ("qreg") (String.mk (c0 :: rest)) (String.mk d)))
          (String.mk (c0 :: rest) ++ Nat.repr i) =
        some { id := String.mk (c0 :: rest) ++ Nat.repr i, type := "qubit",
               name := String.mk (c0 :: rest) ++ Nat.repr i,
               lastGateConnected := none }) ∧
      (∀ key, (∀ i, i < natOfDigits d → key ≠ String.mk (c0 :: rest) ++ Nat.repr i) →
        lookupBits
          (extractBitsLine bits
            (declLine ("qreg") (String.mk (c0 :: rest)) (String.mk d))) key =
        lookupBits bits key) ∧
      (∀ i, i < natOfDigits d →
        lookupBits
          (extractBitsLine bits
            (declLine ("creg") (String.mk (c0 :: rest)) (String.mk d)))
          (String.mk (c0 :: rest) ++ Nat.repr i) =
        some { id := String.mk (c0 :: rest) ++ Nat.repr i,
               type := "classical_bit",
               name := String.mk (c0 :: rest) ++ Nat.repr i,
               lastGateConnected := none }) ∧
      (∀ i, i < natOfDigits d →
        lookupBits
          (parserJsGetBitsLine bits
            (declLine ("qreg") (String.mk (c0 :: rest)) (String.mk d)))
          ("q" ++ Nat.repr i) =
        some { id := "q" ++ Nat.repr i, type := "qubit",
               name := "q" ++ Nat.repr i, lastGateConnected := none }) ∧
      (∀ i, i < natOfDigits d →
        lookupBits
          (parserJsGetBitsLine bits
            (declLine ("creg") (String.mk (c0 :: rest)) (String.mk d)))
          ("c" ++ Nat.repr i) =
        some { id := "c" ++ Nat.repr i, type := "classical_bit",
               name := "c" ++ Nat.repr i, lastGateConnected := none }) := by
  intro bits
  have hmq := matchDecl_declLine ("qreg") 'q' ['r', 'e', 'g'] c0 rest d rfl
    hstart hword hd hdig
  have hmc := matchDecl_declLine ("creg") 'c' ['r', 'e', 'g'] c0 rest d rfl
    hstart hword hd hdig
  have hwq := matchDeclW_declLine ("qreg") 'q' ['r', 'e', 'g'] c0 rest d rfl
    (letterOrUnderscore_word hstart) hword hd hdig
  have hwc := matchDeclW_declLine ("creg") 'c' ['r', 'e', 'g'] c0 rest d rfl
    (letterOrUnderscore_word hstart) hword hd hdig
  have heq := extractBitsLine_qreg bits _ _ _
    (sStartsWith_declLine_self ("qreg") (String.mk (c0 :: rest)) (String.mk d)) hmq
  have hec := extractBitsLine_creg bits _ _ _
    (sStartsWith_creg_line_qreg (String.mk (c0 :: rest)) (String.mk d))
    (sStartsWith_declLine_self ("creg") (String.mk (c0 :: rest)) (String.mk d)) hmc
  have hpq := parserJsLine_qreg bits _ _ _
    (sStartsWith_declLine_self ("qreg") (String.mk (c0 :: rest)) (String.mk d))
    (sStartsWith_qreg_line_creg (String.mk (c0 :: rest)) (String.mk d)) hwq
  have hpc := parserJsLine_creg bits _ _ _
    (sStartsWith_creg_line_qreg (String.mk (c0 :: rest)) (String.mk d))
    (sStartsWith_declLine_self ("creg") (String.mk (c0 :: rest)) (String.mk d)) hwc
  refine ⟨?_, ?_, ?_, ?_, ?_⟩
  · intro i hi
    rw [heq]
    exact declareBits_lookup_hit bits _ _ _ i hi
  · intro key hk
    rw [heq]
    exact declareBits_lookup_miss bits _ _ _ key hk
  · intro i hi
    rw [hec]
    exact declareBits_lookup_hit bits _ _ _ i hi
  · intro i hi
    rw [hpq]
    exact declareBits_lookup_hit bits _ _ _ i hi
  · intro i hi
    rw [hpc]
    exact declareBits_lookup_hit bits _ _ _ i hi

/-- Witness for the amended claim C3, on the register name `foo` of size 2
declared into the empty registry: `graph.js` creates `foo0`, `foo1`;
`parser.js` creates `q0` (and no `foo0`, per the counterexample). -/
theorem claim_C3_amended_witness :
    lookupBits
      (extractBitsLine []
        (declLine ("qreg") (String.mk ('f' :: ['o', 'o'])) (String.mk ['2'])))
      (String.mk ('f' :: ['o', 'o']) ++ Nat.repr 1) =
      some { id := String.mk ('f' :: ['o', 'o']) ++ Nat.repr 1,
             type := "qubit",
             name := String.mk ('f' :: ['o', 'o']) ++ Nat.repr 1,
             lastGateConnected := none } ∧
    lookupBits
      (parserJsGetBitsLine []
        (declLine ("qreg") (String.mk ('f' :: ['o', 'o'])) (String.mk ['2'])))
      ("q" ++ Nat.repr 0) =
      some { id := "q" ++ Nat.repr 0, type := "qubit",
             name := "q" ++ Nat.repr 0, lastGateConnected := none } :=
  ⟨((claim_C3_amended 'f' ['o', 'o'] ['2'] (by decide)
      (by decide) (by decide) (by decide)) []).1 1 (by decide),
   (((claim_C3_amended 'f' ['o', 'o'] ['2'] (by decide)
      (by decide) (by decide) (by decide)) []).2.2.2.1) 0 (by decide)⟩

end Qasm

namespace Qasm

/-! ## Key preservation and error propagation -/

theorem registerGateOnBit_keys {bits bits1 : Bits} {bitId gateId src : String}
    (h : registerGateOnBit bits bitId gateId = .ok (src, bits1)) :
    ∀ key, (lookupBits bits1 key).isNone = (lookupBits bits key).isNone := by
  rw [registerGateOnBit] at h
  cases hl : lookupBits bits bitId with
  | none => rw [hl] at h; cases h
  | some b =>
    rw [hl] at h
    have hb1 : bits1 =
        insertBit bits bitId { b with lastGateConnected := some gateId } :=
      congrArg Prod.snd (Except.ok.inj h) |>.symm
    intro key
    rw [hb1, lookup_insertBit]
    by_cases hk : key = bitId
    · subst hk
      rw [if_pos rfl, hl]
      rfl
    · rw [if_neg hk]

theorem resolveOps_keys {gateId : String} :
    ∀ {ops : List String} {bits : Bits} {es : List Edge} {bits2 : Bits},
      resolveOps bits gateId ops = .ok (es, bits2) →
      ∀ key, (lookupBits bits2 key).isNone = (lookupBits bits key).isNone := by
  intro ops
  induction ops with
  | nil =>
    intro bits es bits2 h key
    rw [resolveOps] at h
    have : bits = bits2 := congrArg Prod.snd (Except.ok.inj h)
    rw [this]
  | cons o rest ih =>
    intro bits es bits2 h key
    rw [resolveOps] at h
    cases hreg : registerGateOnBit bits o gateId with
    | error e => rw [hreg] at h; cases h
    | ok p =>
      obtain ⟨src, bits1⟩ := p
      simp only [hreg] at h
      cases hres : resolveOps bits1 gateId rest with
      | error e => simp only [hres] at h; cases h
      | ok q =>
        obtain ⟨es1, bitsF⟩ := q
        simp only [hres, Except.ok.injEq, Prod.mk.injEq] at h
        rw [← h.2]
        rw [ih hres key, registerGateOnBit_keys hreg key]

theorem applyGate_keys {bits : Bits} {gc : Nat} {g : Graph} {spec : GateSpec}
    {t : Bits × Nat × Graph}
    (h : applyGate bits gc g spec = .ok t) :
    ∀ key, (lookupBits t.1 key).isNone = (lookupBits bits key).isNone := by
  rw [applyGate] at h
  cases hres : resolveOps bits (gid gc) spec.ops with
  | error e => rw [hres] at h; cases h
  | ok p =>
    obtain ⟨es, bits1⟩ := p
    rw [hres] at h
    have : bits1 = t.1 := congrArg (fun x => x.1) (Except.ok.inj h)
    rw [← this]
    exact resolveOps_keys hres

theorem stepLine_keys {s s' : St} {l : String}
    (h : stepLine s l = .ok s') :
    ∀ key, (lookupBits s'.bits key).isNone = (lookupBits s.bits key).isNone := by
  rcases stepLine_ok_cases h with ⟨_, rfl⟩ | ⟨_, _, rfl⟩ |
    ⟨spec, t, _, _, happ, rfl⟩
  · intro key; rfl
  · intro key; rfl
  · exact applyGate_keys happ

theorem runLines_keys :
    ∀ {ls : List String} {s s' : St}, runLines s ls = .ok s' →
      ∀ key, (lookupBits s'.bits key).isNone = (lookupBits s.bits key).isNone := by
  intro ls
  induction ls with
  | nil =>
    intro s s' h key
    rw [Except.ok.inj h]
  | cons l rest ih =>
    intro s s' h key
    rw [runLines_cons] at h
    cases hst : stepLine s l with
    | error e => rw [hst] at h; cases h
    | ok s1 =>
      rw [hst] at h
      rw [ih h key, stepLine_keys hst key]

theorem resolveOps_unknown (gateId : String) :
    ∀ (ops : List String) (bits : Bits) (b : String),
      ops.find? (fun o => (lookupBits bits o).isNone) = some b →
      resolveOps bits gateId ops = .error (.unknownBit (msgUnknown b)) := by
  intro ops
  induction ops with
  | nil => intro bits b h; cases h
  | cons o rest ih =>
    intro bits b h
    cases hl : lookupBits bits o with
    | none =>
      have hb : o = b := by
        rw [List.find?] at h
        rw [hl] at h
        simp at h
        exact h
      subst hb
      rw [resolveOps, registerGateOnBit]
      simp only [hl]
    | some v =>
      have hrest : rest.find? (fun x => (lookupBits bits x).isNone) = some b := by
        rw [List.find?] at h
        rw [hl] at h
        simpa using h
      rw [resolveOps, registerGateOnBit]
      have hcong : (fun x => (lookupBits
          (insertBit bits o { v with lastGateConnected := some gateId }) x).isNone) =
          (fun x => (lookupBits bits x).isNone) := by
        funext x
        rw [lookup_insertBit]
        by_cases hx : x = o
        · subst hx
          rw [if_pos rfl, hl]
          rfl
        · rw [if_neg hx]
      simp only [hl, ih _ b (by rw [hcong]; exact hrest)]

theorem applyGate_unknown {bits : Bits} {gc : Nat} {g : Graph}
    {spec : GateSpec} {b : String}
    (h : spec.ops.find? (fun o => (lookupBits bits o).isNone) = some b) :
    applyGate bits gc g spec = .error (.unknownBit (msgUnknown b)) := by
  rw [applyGate, resolveOps_unknown (gid gc) spec.ops bits b h]

theorem runLines_error_at (s0 : St) (pre post : List String) (l : String)
    (s : St) (e : BuildError)
    (hpre : runLines s0 pre = .ok s)
    (hstep : stepLine s l = .error e) :
    runLines s0 (pre ++ l :: post) = .error e := by
  rw [runLines_append, hpre]
  show runLines s (l :: post) = .error e
  rw [runLines_cons, hstep]

theorem parse_error_at (text : String) (pre post : List String) (l : String)
    (s : St) (e : BuildError)
    (hsan : sanitizeLines text = pre ++ l :: post)
    (hpre : runLines (initState (sanitizeLines text)) pre = .ok s)
    (hstep : stepLine s l = .error e) :
    parse text = .error e := by
  have hb : buildFinalState text = .error e := by
    show runLines (initState (sanitizeLines text)) (sanitizeLines text) = .error e
    rw [hsan] at hpre ⊢
    exact runLines_error_at _ pre post l s e hpre hstep
  rw [parse, hb]

end Qasm

namespace Qasm

/-! ## Claim C4: unknown bits abort the build -/

/-- Claim C4: when the build reaches a recognized instruction line whose
operand tokens are well-formed and whose first operand bit id (in
resolution order) was never declared, the build aborts with the
unknown-bit error — no timestamp sequence is produced, since `parse`
returns the error instead of a sequence. -/
theorem claim_C4 (text : String) (pre post : List String) (l : String)
    (s : St) (spec : GateSpec) (b : String)
    (hsan : sanitizeLines text = pre ++ l :: post)
    (hpre : runLines (initState (sanitizeLines text)) pre = .ok s)
    (hskip : skipLine l = false)
    (hv : lineVerdict l = .ok (some spec))
    (hb : spec.ops.find? (fun o =>
      (lookupBits (extractBits (sanitizeLines text)) o).isNone) = some b) :
    parse text = .error (.unknownBit (msgUnknown b)) := by
  have hkeys := runLines_keys hpre
  have hb1 : spec.ops.find? (fun o => (lookupBits s.bits o).isNone) = some b := by
    have hcong : (fun o => (lookupBits s.bits o).isNone) =
        (fun o => (lookupBits (extractBits (sanitizeLines text)) o).isNone) :=
      funext fun o => hkeys o
    rw [hcong]
    exact hb
  have hstep : stepLine s l = .error (.unknownBit (msgUnknown b)) := by
    rw [stepLine_gate hskip hv, applyGate_unknown hb1]
    rfl
  exact parse_error_at text pre post l s _ hsan hpre hstep

/-- The spec's unknown-bit failure example. -/
def c4Input : String := "qreg q[1];\nh x[0];"

/-- Witness for claim C4: the input `qreg q[1];\nh x[0];` aborts with the
unknown-bit error for `x0`. -/
theorem claim_C4_witness :
    parse c4Input = .error (.unknownBit (msgUnknown "x0")) :=
  claim_C4 c4Input ["qreg q[1];"] [] "h x[0];"
    (initState (sanitizeLines c4Input))
    { type := "single_qubit_gate", name := "h", info := none, ops := ["x0"] }
    "x0" (by decide) (by decide) (by decide) (by decide) (by decide)

/-! ## Claim C5: malformed bit references abort the build -/

/-- Substring containment on character lists. -/
def containsSub : List Char → List Char → Bool
  | [], needle => needle.isEmpty
  | c :: r, needle => needle.isPrefixOf (c :: r) || containsSub r needle

/-- A single-operand line with a malformed bit token. -/
def c5Input : String := "qreg q[1];\nh q[0;"

/-- Counterexample to claim C5: the single-operand handler throws
`Unrecognized bit format: <token>` — a message that cites the offending
token but not the full source line: the message thrown for `h q[0;` does
not contain the line `h q[0;` as a substring. -/
theorem claim_C5_counterexample :
    parse c5Input = .error (.malformedBit (msgTok "q[0")) ∧
    containsSub (msgTok "q[0").data ("h q[0;").data = false := by
  constructor
  · decide
  · decide

/-- Claim C5 (amended): a recognized gate shape with a required operand
token that fails the `letters[digits]` extractor makes the whole build
abort with a `MalformedBitReferenceError` and no partial result; the
message cites the offending token for single-operand shapes
(`Unrecognized bit format: <tok>`), the full source line for two-operand
shapes (`Unrecognized bit format in line: <line>`), and the re-joined
token list for measurement lines. -/
theorem claim_C5_amended :
    (∀ (text : String) (pre post : List String) (l : String) (s : St)
        (msg : String),
      sanitizeLines text = pre ++ l :: post →
      runLines (initState (sanitizeLines text)) pre = .ok s →
      skipLine l = false →
      lineVerdict l = .error (.malformedBit msg) →
      parse text = .error (.malformedBit msg)) ∧
    (∀ (l w0 w1 : String),
      (sContainsChar l '(' && sContainsChar l ')') = false →
      tokenizePlain l = [w0, w1] →
      getBitInfo (stripSemi w1) = none →
      lineVerdict l = .error (.malformedBit (msgTok (stripSemi w1)))) ∧
    (∀ (l w0 w1 w2 : String),
      (sContainsChar l '(' && sContainsChar l ')') = false →
      tokenizePlain l = [w0, w1, w2] →
      (getBitInfo (stripCommaSemi w1) = none ∨ getBitInfo (stripSemi w2) = none) →
      lineVerdict l = .error (.malformedBit (msgLine l))) ∧
    (∀ (l w1 w2 w3 : String),
      (sContainsChar l '(' && sContainsChar l ')') = false →
      tokenizePlain l = ["measure", w1, w2, w3] →
      (getBitInfo (stripCommaSemi w1) = none ∨ getBitInfo (stripSemi w3) = none) →
      lineVerdict l = .error (.malformedBit
        (msgMeasure ("measure" ++ " " ++ w1 ++ " " ++ w2 ++ " " ++ w3)))) ∧
    (∀ (l p0 p1 p2 : String),
      (sContainsChar l '(' && sContainsChar l ')') = true →
      splitParens l = [p0, p1, p2] →
      getBitInfo (stripSemi (sTrim p2)) = none →
      lineVerdict l = .error (.malformedBit (msgTok (stripSemi (sTrim p2))))) ∧
    (∀ (l p0 p1 p2 p3 : String),
      (sContainsChar l '(' && sContainsChar l ')') = true →
      splitParens l = [p0, p1, p2, p3] →
      (getBitInfo (stripCommaSemi (sTrim p2)) = none ∨
        getBitInfo (stripSemi (sTrim p3)) = none) →
      lineVerdict l = .error (.malformedBit (msgLine l))) := by
  refine ⟨?_, ?_, ?_, ?_, ?_, ?_⟩
  · intro text pre post l s msg hsan hpre hskip hv
    exact parse_error_at text pre post l s _ hsan hpre
      (stepLine_error hskip hv)
  · intro l w0 w1 hparen htok hbad
    rw [lineVerdict, hparen]
    simp only [Bool.false_eq_true, if_false, htok, hbad]
  · intro l w0 w1 w2 hparen htok hbad
    rw [lineVerdict, hparen]
    simp only [Bool.false_eq_true, if_false, htok]
    rcases hbad with hbad | hbad
    · simp only [hbad]
    · cases h1 : getBitInfo (stripCommaSemi w1) with
      | none => simp only [h1]
      | some p => obtain ⟨r1, i1⟩ := p; simp only [h1, hbad]
  · intro l w1 w2 w3 hparen htok hbad
    rw [lineVerdict, hparen]
    simp only [Bool.false_eq_true, if_false, htok]
    simp only [if_true]
    rcases hbad with hbad | hbad
    · simp only [hbad]
    · cases h1 : getBitInfo (stripCommaSemi w1) with
      | none => simp only [h1]
      | some p => obtain ⟨r1, i1⟩ := p; simp only [h1, hbad]
  · intro l p0 p1 p2 hparen hsplit hbad
    rw [lineVerdict, hparen]
    simp only [if_true, hsplit, hbad]
  · intro l p0 p1 p2 p3 hparen hsplit hbad
    rw [lineVerdict, hparen]
    simp only [if_true, hsplit]
    rcases hbad with hbad | hbad
    · simp only [hbad]
    · cases h1 : getBitInfo (stripCommaSemi (sTrim p2)) with
      | none => simp only [h1]
      | some p => obtain ⟨r1, i1⟩ := p; simp only [h1, hbad]

/-- A two-operand line with a malformed first operand. -/
def c5TwoOpInput : String := "qreg q[1];\ncx q[0, q[1];"

/-- Witness for the amended claim C5: the two-operand line `cx q[0, q[1];`
aborts the whole build with the malformed-bit error citing the full
line. -/
theorem claim_C5_amended_witness :
    lineVerdict "cx q[0, q[1];" =
      .error (.malformedBit (msgLine "cx q[0, q[1];")) ∧
    parse c5TwoOpInput = .error (.malformedBit (msgLine "cx q[0, q[1];")) := by
  have hv := claim_C5_amended.2.2.1 "cx q[0, q[1];" "cx" "q[0" "q[1];"
    (by decide) (by decide) (Or.inl (by decide))
  exact ⟨hv,
    claim_C5_amended.1 c5TwoOpInput ["qreg q[1];"] [] "cx q[0, q[1];"
      (initState (sanitizeLines c5TwoOpInput)) _ (by decide) (by decide)
      (by decide) hv⟩

end Qasm

namespace Qasm

/-! ## Snapshot growth: the timestamps invariant -/

theorem cloneGraph_id (g : Graph) : cloneGraph g = g := by
  rw [cloneGraph]
  cases g with
  | mk ns es => simp

theorem applyGate_ok_graph {bits : Bits} {gc : Nat} {g : Graph}
    {spec : GateSpec} {t : Bits × Nat × Graph}
    (h : applyGate bits gc g spec = .ok t) :
    ∃ es, t.2.2 = Graph.mk
        (g.nodes ++ [Node.mk (gid gc) spec.type spec.name spec.info])
        (g.edges ++ es) ∧
      resolveOps bits (gid gc) spec.ops = .ok (es, t.1) ∧
      t.2.1 = gc + 1 := by
  rw [applyGate] at h
  cases hres : resolveOps bits (gid gc) spec.ops with
  | error e => rw [hres] at h; cases h
  | ok p =>
    obtain ⟨es, bits1⟩ := p
    simp only [hres] at h
    have hinj := Except.ok.inj h
    have hbits : bits1 = t.1 := congrArg (fun x => x.1) hinj
    have hgc : gc + 1 = t.2.1 := congrArg (fun x => x.2.1) hinj
    have hgr : Graph.mk
        (g.nodes ++ [Node.mk (gid gc) spec.type spec.name spec.info])
        (g.edges ++ es) = t.2.2 := congrArg (fun x => x.2.2) hinj
    refine ⟨es, hgr.symm, ?_, hgc.symm⟩
    rw [← hbits]

/-- Growth of one step: the live graph and the stored snapshots only
gain entries. -/
theorem stepLine_growth {s s' : St} {l : String}
    (h : stepLine s l = .ok s') :
    s.graph.nodes <+: s'.graph.nodes ∧ s.graph.edges <+: s'.graph.edges ∧
    s.timestamps <+: s'.timestamps ∧ s.lineCounter ≤ s'.lineCounter ∧
    (s'.timestamps = s.timestamps ∨
      s'.timestamps = s.timestamps ++ [(s.lineCounter + 1, s'.graph)]) := by
  rcases stepLine_ok_cases h with ⟨_, rfl⟩ | ⟨_, _, rfl⟩ |
    ⟨spec, t, _, _, happ, rfl⟩
  · exact ⟨List.prefix_refl _, List.prefix_refl _, List.prefix_refl _,
      Nat.le_refl _, Or.inl rfl⟩
  · exact ⟨List.prefix_refl _, List.prefix_refl _, List.prefix_refl _,
      Nat.le_succ _, Or.inl rfl⟩
  · obtain ⟨es, hg, _, _⟩ := applyGate_ok_graph happ
    refine ⟨?_, ?_, ?_, Nat.le_succ _, ?_⟩
    · show s.graph.nodes <+: t.2.2.nodes
      rw [hg]
      exact ⟨_, rfl⟩
    · show s.graph.edges <+: t.2.2.edges
      rw [hg]
      exact ⟨_, rfl⟩
    · exact ⟨_, rfl⟩
    · right
      show s.timestamps ++ [(s.lineCounter + 1, cloneGraph t.2.2)] =
        s.timestamps ++ [(s.lineCounter + 1, t.2.2)]
      rw [cloneGraph_id]

/-- The ordering invariant of the timestamp store: keys strictly increase
and graphs grow along the store, every stored graph is a prefix of the
live one, and keys are bounded by the line counter. -/
def TsInv (s : St) : Prop :=
  List.Pairwise (fun a b : Nat × Graph => a.1 < b.1 ∧
    a.2.nodes <+: b.2.nodes ∧ a.2.edges <+: b.2.edges) s.timestamps ∧
  (∀ e ∈ s.timestamps, e.1 ≤ s.lineCounter ∧
    e.2.nodes <+: s.graph.nodes ∧ e.2.edges <+: s.graph.edges)

theorem stepLine_TsInv {s s' : St} {l : String}
    (h : stepLine s l = .ok s') (hinv : TsInv s) : TsInv s' := by
  obtain ⟨hp, hb⟩ := hinv
  obtain ⟨hn, he, hts, hc, hcase⟩ := stepLine_growth h
  rcases hcase with hts' | hts'
  · constructor
    · rw [hts']; exact hp
    · intro e he'
      rw [hts'] at he'
      obtain ⟨h1, h2, h3⟩ := hb e he'
      exact ⟨Nat.le_trans h1 hc, List.IsPrefix.trans h2 hn,
        List.IsPrefix.trans h3 he⟩
  · have hcnt : s'.lineCounter = s.lineCounter + 1 := by
      rcases stepLine_ok_cases h with ⟨_, rfl⟩ | ⟨_, _, rfl⟩ |
        ⟨spec, t, _, _, _, rfl⟩
      · exfalso
        have hlen := congrArg List.length hts'
        simp at hlen
      · rfl
      · rfl
    constructor
    · rw [hts', List.pairwise_append]
      refine ⟨hp, List.pairwise_singleton _ _, ?_⟩
      intro a ha b hbmem
      have hbm : b = (s.lineCounter + 1, s'.graph) := by
        simpa using hbmem
      obtain ⟨h1, h2, h3⟩ := hb a ha
      subst hbm
      exact ⟨by omega, List.IsPrefix.trans h2 hn, List.IsPrefix.trans h3 he⟩
    · intro e he'
      rw [hts'] at he'
      rcases List.mem_append.mp he' with hm | hm
      · obtain ⟨h1, h2, h3⟩ := hb e hm
        exact ⟨by omega, List.IsPrefix.trans h2 hn,
          List.IsPrefix.trans h3 he⟩
      · have : e = (s.lineCounter + 1, s'.graph) := by simpa using hm
        subst this
        exact ⟨by omega, List.prefix_refl _, List.prefix_refl _⟩

theorem runLines_TsInv :
    ∀ {ls : List String} {s s' : St}, runLines s ls = .ok s' →
      TsInv s → TsInv s' := by
  intro ls
  induction ls with
  | nil =>
    intro s s' h hinv
    rw [← Except.ok.inj h]
    exact hinv
  | cons l rest ih =>
    intro s s' h hinv
    rw [runLines_cons] at h
    cases hst : stepLine s l with
    | error e => rw [hst] at h; cases h
    | ok s1 =>
      rw [hst] at h
      exact ih h (stepLine_TsInv hst hinv)

theorem initState_TsInv (lines : List String) : TsInv (initState lines) := by
  constructor
  · exact List.pairwise_singleton _ _
  · intro e he
    have he2 : e = (0, (initState lines).graph) := by
      simpa [initState, cloneGraph_id] using he
    subst he2
    exact ⟨Nat.zero_le _, List.prefix_refl _, List.prefix_refl _⟩

theorem buildFinalState_TsInv {text : String} {sF : St}
    (h : buildFinalState text = .ok sF) : TsInv sF :=
  runLines_TsInv h (initState_TsInv (sanitizeLines text))

/-- Extract the monotone relation between any two stored snapshots with
ordered keys. -/
theorem ts_mono {ts : List (Nat × Graph)}
    (hp : List.Pairwise (fun a b : Nat × Graph => a.1 < b.1 ∧
      a.2.nodes <+: b.2.nodes ∧ a.2.edges <+: b.2.edges) ts) :
    ∀ {k1 : Nat} {g1 : Graph} {k2 : Nat} {g2 : Graph},
      (k1, g1) ∈ ts → (k2, g2) ∈ ts → k1 < k2 →
      g1.nodes <+: g2.nodes ∧ g1.edges <+: g2.edges := by
  induction ts with
  | nil => intro k1 g1 k2 g2 h1; cases h1
  | cons a rest ih =>
    intro k1 g1 k2 g2 h1 h2 hlt
    rcases List.mem_cons.mp h1 with rfl | h1m
    · rcases List.mem_cons.mp h2 with h2e | h2m
      · injection h2e with hk hg
        omega
      · obtain ⟨_, hx, hy⟩ := (List.pairwise_cons.mp hp).1 _ h2m
        exact ⟨hx, hy⟩
    · rcases List.mem_cons.mp h2 with rfl | h2m
      · obtain ⟨hk, _, _⟩ := (List.pairwise_cons.mp hp).1 _ h1m
        omega
      · exact ih (List.pairwise_cons.mp hp).2 h1m h2m hlt

/-- Claim C6: on every successful build, snapshots at larger time-keys
contain the node and edge sets of snapshots at smaller time-keys — the
sets never shrink across increasing keys. -/
theorem claim_C6 (text : String) (ts : List (Nat × Graph))
    (k1 : Nat) (g1 : Graph) (k2 : Nat) (g2 : Graph)
    (hp : parse text = .ok ts)
    (h1 : (k1, g1) ∈ ts) (h2 : (k2, g2) ∈ ts) (hlt : k1 < k2) :
    g1.nodes ⊆ g2.nodes ∧ g1.edges ⊆ g2.edges := by
  have hbf : ∃ sF, buildFinalState text = .ok sF ∧ ts = sF.timestamps := by
    rw [parse] at hp
    cases hb : buildFinalState text with
    | error e => rw [hb] at hp; cases hp
    | ok sF =>
      rw [hb] at hp
      exact ⟨sF, rfl, (Except.ok.inj hp).symm⟩
  obtain ⟨sF, hb, rfl⟩ := hbf
  have hinv := buildFinalState_TsInv hb
  have := ts_mono hinv.1 h1 h2 hlt
  exact ⟨this.1.subset, this.2.subset⟩

/-- Witness for claim C6 on the worked example: snapshot 0 is contained in
snapshot 3. -/
theorem claim_C6_witness :
    ({ nodes := exC1BitNodes, edges := [] } : Graph).nodes ⊆
      (exC1.getLast (by decide)).2.nodes ∧
    ({ nodes := exC1BitNodes, edges := [] } : Graph).edges ⊆
      (exC1.getLast (by decide)).2.edges :=
  claim_C6 exampleC1Input exC1 0 { nodes := exC1BitNodes, edges := [] }
    3 (exC1.getLast (by decide)).2 (by decide) (by decide) (by decide)
    (by decide)

end Qasm

namespace Qasm

/-! ## Claim C9: stored snapshots are never altered afterwards -/

theorem runLines_ts_pfx :
    ∀ {ls : List String} {s s' : St}, runLines s ls = .ok s' →
      s.timestamps <+: s'.timestamps := by
  intro ls
  induction ls with
  | nil =>
    intro s s' h
    rw [← Except.ok.inj h]
  | cons l rest ih =>
    intro s s' h
    rw [runLines_cons] at h
    cases hst : stepLine s l with
    | error e => rw [hst] at h; cases h
    | ok s1 =>
      rw [hst] at h
      exact List.IsPrefix.trans (stepLine_growth hst).2.2.1 (ih h)

theorem lookup_of_mem_keyNodup :
    ∀ {ts : List (Nat × Graph)},
      List.Pairwise (fun a b : Nat × Graph => a.1 ≠ b.1) ts →
      ∀ {k : Nat} {g : Graph}, (k, g) ∈ ts → List.lookup k ts = some g := by
  intro ts
  induction ts with
  | nil => intro _ k g h; cases h
  | cons a rest ih =>
    intro hp k g hm
    obtain ⟨a1, a2⟩ := a
    rcases List.mem_cons.mp hm with he | hmem
    · injection he with h1 h2
      subst h1
      subst h2
      simp [List.lookup]
    · have hne : a1 ≠ k := by
        have := (List.pairwise_cons.mp hp).1 (k, g) hmem
        simpa using this
      have hbeq : (k == a1) = false :=
        beq_eq_false_iff_ne.mpr (fun hc => hne hc.symm)
      simp only [List.lookup, hbeq]
      exact ih (List.pairwise_cons.mp hp).2 hmem

/-- Claim C9: once a snapshot is stored under a key, processing the rest
of the input leaves it unchanged — the final timestamp sequence maps that
key to exactly the stored graph. -/
theorem claim_C9 (text : String) (pre post : List String) (s sF : St)
    (hsan : sanitizeLines text = pre ++ post)
    (hpre : runLines (initState (sanitizeLines text)) pre = .ok s)
    (hfin : buildFinalState text = .ok sF) :
    ∀ (k : Nat) (g : Graph), (k, g) ∈ s.timestamps →
      List.lookup k sF.timestamps = some g := by
  intro k g hm
  have hrun : runLines (initState (sanitizeLines text)) (sanitizeLines text) =
      .ok sF := hfin
  rw [hsan] at hpre hrun
  simp only [runLines_append, hpre] at hrun
  have hpost : runLines s post = .ok sF := hrun
  have hmem : (k, g) ∈ sF.timestamps :=
    (runLines_ts_pfx hpost).subset hm
  have hinv := buildFinalState_TsInv hfin
  have hknd : List.Pairwise (fun a b : Nat × Graph => a.1 ≠ b.1)
      sF.timestamps := by
    refine List.Pairwise.imp ?_ hinv.1
    intro a b hab
    omega
  exact lookup_of_mem_keyNodup hknd hmem

/-- The parse state of the worked example after its first four lines. -/
def c9MidState : St :=
  { bits := [("q0", { id := "q0", type := "qubit", name := "q0",
                      lastGateConnected := some "g_1" }),
             ("q1", { id := "q1", type := "qubit", name := "q1",
                      lastGateConnected := some "g_1" }),
             ("c0", { id := "c0", type := "classical_bit", name := "c0",
                      lastGateConnected := none })],
    gateIdCounter := 2,
    graph := Graph.mk
      (exC1BitNodes ++ [Node.mk "g_0" "single_qubit_gate" "h" none,
                        Node.mk "g_1" "two_qubit_gate" "cx" none])
      [Edge.mk "q0" "g_0", Edge.mk "g_0" "g_1", Edge.mk "q1" "g_1"],
    lineCounter := 2,
    timestamps := exC1.take 3 }

/-- The final parse state of the worked example. -/
def c9FinalState : St :=
  { bits := [("q0", { id := "q0", type := "qubit", name := "q0",
                      lastGateConnected := some "g_1" }),
             ("q1", { id := "q1", type := "qubit", name := "q1",
                      lastGateConnected := some "g_2" }),
             ("c0", { id := "c0", type := "classical_bit", name := "c0",
                      lastGateConnected := some "g_2" })],
    gateIdCounter := 3,
    graph := Graph.mk
      (exC1BitNodes ++ [Node.mk "g_0" "single_qubit_gate" "h" none,
                        Node.mk "g_1" "two_qubit_gate" "cx" none,
                        Node.mk "g_2" "measurement" "measure" none])
      [Edge.mk "q0" "g_0", Edge.mk "g_0" "g_1", Edge.mk "q1" "g_1",
       Edge.mk "g_1" "g_2", Edge.mk "c0" "g_2"],
    lineCounter := 3,
    timestamps := exC1 }

/-- Witness for claim C9 on the worked example: the snapshot stored under
key 1 before the measurement line is processed is still what the final
sequence holds at key 1. -/
theorem claim_C9_witness :
    List.lookup 1 c9FinalState.timestamps = some exC1Snap1 :=
  claim_C9 exampleC1Input
    ["qreg q[2];", "creg c[1];", "h q[0];", "cx q[0],q[1];"]
    ["measure q[1] -> c[0];"] c9MidState c9FinalState
    (by decide) (by decide) (by decide) 1 exC1Snap1 (by decide)

/-! ## Claim C8: the time-key set -/

/-- The time-keys the instruction pass emits: one key per recognized
(graph-changing) line, valued at the running line counter, which also
advances on non-skipped lines that match no shape. -/
def changedKeys : Nat → List String → List Nat
  | _, [] => []
  | c, l :: rest =>
    if skipLine l then changedKeys c rest
    else
      match lineVerdict l with
      | .ok (some _) => (c + 1) :: changedKeys (c + 1) rest
      | _ => changedKeys (c + 1) rest

theorem runLines_keysMap :
    ∀ {ls : List String} {s s' : St}, runLines s ls = .ok s' →
      s'.timestamps.map Prod.fst =
        s.timestamps.map Prod.fst ++ changedKeys s.lineCounter ls := by
  intro ls
  induction ls with
  | nil =>
    intro s s' h
    rw [← Except.ok.inj h, changedKeys, List.append_nil]
  | cons l rest ih =>
    intro s s' h
    rw [runLines_cons] at h
    cases hst : stepLine s l with
    | error e => rw [hst] at h; cases h
    | ok s1 =>
      rw [hst] at h
      rcases stepLine_ok_cases hst with ⟨hsk, rfl⟩ | ⟨hsk, hv, hs1⟩ |
        ⟨spec, t, hsk, hv, happ, hs1⟩
      · rw [ih h, changedKeys, if_pos hsk]
      · rw [ih h, changedKeys, if_neg (by rw [hsk]; exact fun hc => nomatch hc),
          hv, hs1]
      · rw [ih h, changedKeys, if_neg (by rw [hsk]; exact fun hc => nomatch hc),
          hv, hs1]
        show (s.timestamps ++ [(s.lineCounter + 1, cloneGraph t.2.2)]).map
            Prod.fst ++ changedKeys (s.lineCounter + 1) rest = _
        rw [List.map_append, List.append_assoc]
        rfl

/-- Claim C8: on every successful build the time-keys of the returned
sequence are exactly 0 followed by the line-counter values of the
recognized (graph-changing) instruction lines, and a non-skipped line that
matches no recognized shape is not an error: it advances the line counter
and changes nothing else. -/
theorem claim_C8 :
    (∀ (text : String) (sF : St), buildFinalState text = .ok sF →
      sF.timestamps.map Prod.fst = 0 :: changedKeys 0 (sanitizeLines text)) ∧
    (∀ (s : St) (l : String), skipLine l = false → lineVerdict l = .ok none →
      stepLine s l = .ok { s with lineCounter := s.lineCounter + 1 }) := by
  constructor
  · intro text sF h
    have := runLines_keysMap h
    rw [this]
    rfl
  · intro s l h1 h2
    exact stepLine_unrecognized h1 h2

/-- The final parse state of a build whose second line matches no
recognized shape (4 plain tokens not headed by `measure`). -/
def c8FinalState : St :=
  { bits := [("q0", { id := "q0", type := "qubit", name := "q0",
                      lastGateConnected := some "g_0" })],
    gateIdCounter := 1,
    graph := Graph.mk
      ([Node.mk "q0" "qubit" "q0" none,
        Node.mk "g_0" "single_qubit_gate" "h" none])
      [Edge.mk "q0" "g_0"],
    lineCounter := 2,
    timestamps :=
      [(0, Graph.mk [Node.mk "q0" "qubit" "q0" none] []),
       (2, Graph.mk
         ([Node.mk "q0" "qubit" "q0" none,
           Node.mk "g_0" "single_qubit_gate" "h" none])
         [Edge.mk "q0" "g_0"])] }

/-- Witness for claim C8: an input with an unsupported `barrier` line
yields the key set 0, 2 — the barrier line advances the counter but adds
no key — an empty input yields exactly the key 0, and stepping the
barrier line from the demo state only advances the counter. -/
theorem claim_C8_witness :
    c8FinalState.timestamps.map Prod.fst =
      0 :: changedKeys 0
        (sanitizeLines "qreg q[1];\nbarrier q[0], q[1], q[2];\nh q[0];") ∧
    (initState []).timestamps.map Prod.fst =
      0 :: changedKeys 0 (sanitizeLines "") ∧
    stepLine demoState "barrier q[0], q[1], q[2];" =
      .ok { demoState with lineCounter := demoState.lineCounter + 1 } :=
  ⟨claim_C8.1 "qreg q[1];\nbarrier q[0], q[1], q[2];\nh q[0];" c8FinalState
      (by decide),
   claim_C8.1 "" (initState []) (by decide),
   claim_C8.2 demoState "barrier q[0], q[1], q[2];" (by decide) (by decide)⟩

end Qasm

namespace Qasm

/-! ## The gate sequence of an input and its resolution semantics -/

/-- The gates a line list creates, numbered by the gate-id counter:
one entry per recognized line, carrying its operand bit ids in resolution
order. -/
def gatesOf : Nat → List String → List (Nat × List String)
  | _, [] => []
  | c, l :: rest =>
    if skipLine l then gatesOf c rest
    else
      match lineVerdict l with
      | .ok (some spec) => (c, spec.ops) :: gatesOf (c + 1) rest
      | _ => gatesOf c rest

/-- The gate numbers that use a bit, in creation order. -/
def usersNum (bid : String) (gs : List (Nat × List String)) : List Nat :=
  (gs.filter (fun p => decide (bid ∈ p.2))).map Prod.fst

/-- The edges one gate emits, resolving its operands left to right:
`seen` holds the operands this gate has already written. -/
def gateEdgesAux (gs : List (Nat × List String)) (j : Nat) :
    List String → List String → List Edge
  | _, [] => []
  | seen, o :: rest =>
    Edge.mk
      (if o ∈ seen then gid j
       else (((usersNum o gs).getLast?).map gid).getD o)
      (gid j) :: gateEdgesAux gs j (o :: seen) rest

/-- The node types of declared bits. -/
def isBitTypeStr (t : String) : Prop :=
  t = "qubit" ∨ t = "classical_bit"

/-- The node types of gate nodes. -/
def isGateTypeStr (t : String) : Prop :=
  t = "single_qubit_gate" ∨ t = "one_quit_gate" ∨ t = "two_qubit_gate" ∨
  t = "measurement"

instance (t : String) : Decidable (isBitTypeStr t) := by
  unfold isBitTypeStr; infer_instance

instance (t : String) : Decidable (isGateTypeStr t) := by
  unfold isGateTypeStr; infer_instance

/-- The well-formedness of one snapshot, per claim C10 (amended): the
gate-node ids are exactly `g_0 … g_(m-1)` in creation order; every edge
targets a gate node of the snapshot; and every edge's source is either a
bit node of the snapshot or a gate id no later than the target's. -/
def SnapC10 (g : Graph) : Prop :=
  (∃ m, (g.nodes.filter (fun n => decide (isGateTypeStr n.type))).map Node.id =
    (List.range m).map gid) ∧
  (∀ e ∈ g.edges,
    (∃ n ∈ g.nodes, n.id = e.target ∧ isGateTypeStr n.type) ∧
    ((∃ n ∈ g.nodes, n.id = e.source ∧ isBitTypeStr n.type) ∨
      (∃ a t, e.source = gid a ∧ e.target = gid t ∧ a ≤ t)))

theorem usersNum_append (bid : String) (gs : List (Nat × List String))
    (j : Nat) (ops : List String) :
    usersNum bid (gs ++ [(j, ops)]) =
      usersNum bid gs ++ (if bid ∈ ops then [j] else []) := by
  rw [usersNum, usersNum, List.filter_append, List.map_append]
  congr 1
  by_cases h : bid ∈ ops
  · simp [h]
  · simp [h]

theorem gid_data (n : Nat) : (gid n).data = 'g' :: '_' :: (Nat.repr n).data :=
  rfl

theorem underscore_not_alphanum : isAlphanumChar '_' = false := by decide

theorem alphanum_ne_gid {bid : String}
    (h : ∀ ch ∈ bid.data, isAlphanumChar ch = true) (n : Nat) :
    bid ≠ gid n := by
  intro hc
  have : '_' ∈ bid.data := by
    rw [hc, gid_data]
    simp
  have := h _ this
  rw [underscore_not_alphanum] at this
  cases this

/-! ## Shape of `getBitInfo` results -/

theorem tryBitAt_shape {cs : List Char} {r i : String}
    (h : tryBitAt cs = some (r, i)) :
    (∀ c ∈ r.data, isLetterChar c = true) ∧ r.data ≠ [] ∧
    (∀ c ∈ i.data, isDigitChar c = true) ∧ i.data ≠ [] := by
  rw [tryBitAt] at h
  by_cases hl : (cs.takeWhile isLetterChar).isEmpty = true
  · rw [if_pos hl] at h; cases h
  · rw [if_neg hl] at h
    split at h
    · rename_i r2 heq
      by_cases hdg : (r2.takeWhile isDigitChar).isEmpty = true
      · simp only [if_pos hdg] at h
        cases h
      · simp only [if_neg hdg] at h
        split at h
        · rename_i tail heq2
          injection h with h1
          injection h1 with h2 h3
          subst h2
          subst h3
          refine ⟨?_, ?_, ?_, ?_⟩
          · intro c hc
            exact List.mem_takeWhile_imp hc
          · intro hc
            rw [List.isEmpty_iff] at hl
            exact hl hc
          · intro c hc
            exact List.mem_takeWhile_imp hc
          · intro hc
            rw [List.isEmpty_iff] at hdg
            exact hdg hc
        · cases h
    · cases h

theorem bitScan_shape :
    ∀ {cs : List Char} {r i : String}, bitScan cs = some (r, i) →
      (∀ c ∈ r.data, isLetterChar c = true) ∧ r.data ≠ [] ∧
      (∀ c ∈ i.data, isDigitChar c = true) ∧ i.data ≠ [] := by
  intro cs
  induction cs with
  | nil => intro r i h; cases h
  | cons c rest ih =>
    intro r i h
    rw [bitScan] at h
    cases htry : tryBitAt (c :: rest) with
    | some x =>
      rw [htry] at h
      obtain ⟨xr, xi⟩ := x
      have : xr = r ∧ xi = i := by
        injection h with h1
        injection h1 with h2 h3
        exact ⟨h2, h3⟩
      obtain ⟨rfl, rfl⟩ := this
      exact tryBitAt_shape htry
    | none =>
      rw [htry] at h
      exact ih h

theorem getBitInfo_shape {tok : String} {r i : String}
    (h : getBitInfo tok = some (r, i)) :
    (∀ c ∈ (r ++ i).data, isAlphanumChar c = true) ∧ (r ++ i).data ≠ [] := by
  obtain ⟨h1, h2, h3, h4⟩ := bitScan_shape h
  constructor
  · intro c hc
    rw [string_data_append] at hc
    rcases List.mem_append.mp hc with hm | hm
    · rw [isAlphanumChar, h1 c hm]
      rfl
    · rw [isAlphanumChar, h3 c hm]
      simp
  · rw [string_data_append]
    intro hc
    exact h2 (List.append_eq_nil.mp hc).1

end Qasm

namespace Qasm

/-- Every recognized gate has one of the four gate node types, and its
operand ids are non-empty alphanumeric strings (so never of the gate id
shape `g_<n>`). -/
theorem lineVerdict_some_shape {l : String} {spec : GateSpec}
    (h : lineVerdict l = .ok (some spec)) :
    isGateTypeStr spec.type ∧
    ∀ o ∈ spec.ops, (∀ ch ∈ o.data, isAlphanumChar ch = true) ∧
      o.data ≠ [] := by
  rw [lineVerdict] at h
  split at h
  · split at h
    · dsimp only at h
      split at h
      · cases h
      · rename_i reg idx heq
        injection h with h1
        injection h1 with h2
        subst h2
        refine ⟨Or.inr (Or.inl rfl), ?_⟩
        intro o ho
        have : o = reg ++ idx := by simpa using ho
        subst this
        exact getBitInfo_shape heq
    · dsimp only at h
      split at h
      · rename_i r1 i1 r2 i2 heq1 heq2
        injection h with h1
        injection h1 with h2
        subst h2
        refine ⟨Or.inr (Or.inr (Or.inl rfl)), ?_⟩
        intro o ho
        rcases by simpa using ho with rfl | rfl
        · exact getBitInfo_shape heq1
        · exact getBitInfo_shape heq2
      · cases h
    · injection h with h1
      cases h1
  · split at h
    · dsimp only at h
      split at h
      · cases h
      · rename_i reg idx heq
        injection h with h1
        injection h1 with h2
        subst h2
        refine ⟨Or.inl rfl, ?_⟩
        intro o ho
        have : o = reg ++ idx := by simpa using ho
        subst this
        exact getBitInfo_shape heq
    · dsimp only at h
      split at h
      · rename_i r1 i1 r2 i2 heq1 heq2
        injection h with h1
        injection h1 with h2
        subst h2
        refine ⟨Or.inr (Or.inr (Or.inl rfl)), ?_⟩
        intro o ho
        rcases by simpa using ho with rfl | rfl
        · exact getBitInfo_shape heq1
        · exact getBitInfo_shape heq2
      · cases h
    · split at h
      · dsimp only at h
        split at h
        · rename_i r1 i1 r2 i2 heq1 heq2
          injection h with h1
          injection h1 with h2
          subst h2
          refine ⟨Or.inr (Or.inr (Or.inr rfl)), ?_⟩
          intro o ho
          rcases by simpa using ho with rfl | rfl
          · exact getBitInfo_shape heq1
          · exact getBitInfo_shape heq2
        · cases h
      · injection h with h1
        cases h1
    · injection h with h1
      cases h1

end Qasm

namespace Qasm

/-! ## Characterizing operand resolution -/

/-- The relation between the registry mid-way through resolving a gate's
operands and the abstract usage history: operands already written by gate
`j` (`seen`) point at it, everything else points at its last prior
user. -/
def midRel (bits0 : Bits) (gs : List (Nat × List String)) (j : Nat)
    (seen : List String) (bits : Bits) : Prop :=
  ∀ bid, lookupBits bits bid = (lookupBits bits0 bid).map
    (fun b0 => { b0 with lastGateConnected :=
      if bid ∈ seen then some (gid j)
      else ((usersNum bid gs).getLast?).map gid })

theorem resolveOps_char (bits0 : Bits) (gs : List (Nat × List String))
    (j : Nat) :
    ∀ (ops seen : List String) (bits : Bits) (es : List Edge) (bits' : Bits),
      midRel bits0 gs j seen bits →
      resolveOps bits (gid j) ops = .ok (es, bits') →
      es = gateEdgesAux gs j seen ops ∧
      ∀ bid, lookupBits bits' bid = (lookupBits bits0 bid).map
        (fun b0 => { b0 with lastGateConnected :=
          if bid ∈ ops ∨ bid ∈ seen then some (gid j)
          else ((usersNum bid gs).getLast?).map gid }) := by
  intro ops
  induction ops with
  | nil =>
    intro seen bits es bits' hrel h
    rw [resolveOps] at h
    have he : es = [] := (congrArg Prod.fst (Except.ok.inj h)).symm
    have hb : bits' = bits := (congrArg Prod.snd (Except.ok.inj h)).symm
    subst he
    subst hb
    refine ⟨rfl, ?_⟩
    intro bid
    rw [hrel bid]
    by_cases hs : bid ∈ seen
    · simp [hs]
    · simp [hs]
  | cons o rest ih =>
    intro seen bits es bits' hrel h
    rw [resolveOps, registerGateOnBit] at h
    have hlook := hrel o
    cases h0 : lookupBits bits0 o with
    | none =>
      rw [h0] at hlook
      simp only [Option.map_none'] at hlook
      rw [hlook] at h
      cases h
    | some b0 =>
      rw [h0] at hlook
      simp only [Option.map_some'] at hlook
      rw [hlook] at h
      simp only [] at h
      cases hres : resolveOps
          (insertBit bits o { b0 with lastGateConnected := some (gid j) })
          (gid j) rest with
      | error e =>
        rw [hres] at h
        cases h
      | ok q =>
        obtain ⟨es1, bits2⟩ := q
        rw [hres] at h
        simp only [Except.ok.injEq, Prod.mk.injEq] at h
        have hrel1 : midRel bits0 gs j (o :: seen)
            (insertBit bits o { b0 with lastGateConnected := some (gid j) }) := by
          intro bid
          rw [lookup_insertBit]
          by_cases hbo : bid = o
          · subst hbo
            rw [if_pos rfl, h0]
            simp
          · rw [if_neg hbo, hrel bid]
            by_cases hbs : bid ∈ seen
            · simp [hbs, List.mem_cons, hbo]
            · simp [hbs, List.mem_cons, hbo]
        obtain ⟨hes1, hrel2⟩ := ih (o :: seen) _ es1 bits2 hrel1 hres
        constructor
        · rw [← h.1, hes1, gateEdgesAux]
          congr 1
          by_cases hs : o ∈ seen
          · simp [hs]
          · simp [hs]
        · intro bid
          rw [← h.2, hrel2 bid]
          by_cases hbr : bid ∈ rest
          · simp [hbr, List.mem_cons]
          · by_cases hbo : bid = o
            · subst hbo
              simp [hbr, List.mem_cons]
            · by_cases hbs : bid ∈ seen
              · simp [hbr, hbo, hbs, List.mem_cons]
              · simp [hbr, hbo, hbs, List.mem_cons]

theorem resolveOps_ok_declared {gateId : String} :
    ∀ {ops : List String} {bits : Bits} {x : List Edge × Bits},
      resolveOps bits gateId ops = .ok x →
      ∀ o ∈ ops, (lookupBits bits o).isNone = false := by
  intro ops
  induction ops with
  | nil => intro bits x _ o ho; cases ho
  | cons o2 rest ih =>
    intro bits x h o ho
    rw [resolveOps] at h
    cases hreg : registerGateOnBit bits o2 gateId with
    | error e => rw [hreg] at h; cases h
    | ok p =>
      obtain ⟨src, bits1⟩ := p
      simp only [hreg] at h
      cases hres : resolveOps bits1 gateId rest with
      | error e => rw [hres] at h; cases h
      | ok q =>
        rcases List.mem_cons.mp ho with rfl | hmem
        · rw [registerGateOnBit] at hreg
          cases hl : lookupBits bits o with
          | none => rw [hl] at hreg; cases hreg
          | some b => rfl
        · rw [← registerGateOnBit_keys hreg o]
          exact ih hres o hmem

end Qasm

namespace Qasm

/-! ## Facts about the edges one gate emits -/

theorem gateEdgesAux_src_filter (gs : List (Nat × List String)) (j : Nat)
    (bid : String) (halpha : ∀ ch ∈ bid.data, isAlphanumChar ch = true) :
    ∀ (ops seen : List String),
      (gateEdgesAux gs j seen ops).filter (fun e => e.source = bid) =
        if bid ∈ ops ∧ bid ∉ seen ∧ usersNum bid gs = []
        then [Edge.mk bid (gid j)] else [] := by
  intro ops
  induction ops with
  | nil =>
    intro seen
    simp [gateEdgesAux]
  | cons o rest ih =>
    intro seen
    rw [gateEdgesAux]
    by_cases ho : o = bid
    · subst ho
      by_cases hseen : o ∈ seen
      · rw [if_pos hseen]
        rw [List.filter_cons_of_neg (by
          simp only [decide_eq_true_eq]
          intro hc
          exact alphanum_ne_gid halpha j hc.symm)]
        rw [ih (o :: seen)]
        rw [if_neg (by
          intro hc
          exact hc.2.1 (List.mem_cons_self o seen))]
        rw [if_neg (by
          intro hc
          exact hc.2.1 hseen)]
      · rw [if_neg hseen]
        cases hu : (usersNum o gs).getLast? with
        | none =>
          have husers : usersNum o gs = [] :=
            List.getLast?_eq_none_iff.mp hu
          simp only [Option.map_none', Option.getD_none]
          rw [List.filter_cons_of_pos (by simp)]
          rw [ih (o :: seen)]
          rw [if_neg (fun hc => hc.2.1 (List.mem_cons_self o seen))]
          rw [if_pos ⟨List.mem_cons_self o rest, hseen, husers⟩]
        | some a =>
          have husers : usersNum o gs ≠ [] := by
            intro hc
            rw [hc] at hu
            cases hu
          simp only [Option.map_some', Option.getD_some]
          rw [List.filter_cons_of_neg (by
            simp only [decide_eq_true_eq]
            intro hc
            exact alphanum_ne_gid halpha a hc.symm)]
          rw [ih (o :: seen)]
          rw [if_neg (fun hc => hc.2.1 (List.mem_cons_self o seen)),
            if_neg (fun hc => husers hc.2.2)]
    · have hsrc : ((if o ∈ seen then gid j
          else (((usersNum o gs).getLast?).map gid).getD o) = bid) = False := by
        simp only [eq_iff_iff, iff_false]
        by_cases hs2 : o ∈ seen
        · rw [if_pos hs2]
          exact fun hc => (alphanum_ne_gid halpha j) hc.symm
        · rw [if_neg hs2]
          cases hu : (usersNum o gs).getLast? with
          | none =>
            simp only [Option.map_none', Option.getD_none]
            exact fun hc => ho hc
          | some a =>
            simp only [Option.map_some', Option.getD_some]
            exact fun hc => (alphanum_ne_gid halpha a) hc.symm
      rw [List.filter_cons_of_neg (by simp [hsrc])]
      rw [ih (o :: seen)]
      by_cases hin : bid ∈ rest ∧ bid ∉ o :: seen ∧ usersNum bid gs = []
      · rw [if_pos hin, if_pos ⟨List.mem_cons_of_mem o hin.1,
          fun hc => hin.2.1 (List.mem_cons_of_mem o hc), hin.2.2⟩]
      · rw [if_neg hin]
        rw [if_neg (by
          intro hc
          apply hin
          refine ⟨?_, ?_, hc.2.2⟩
          · rcases List.mem_cons.mp hc.1 with he | hm
            · exact absurd he.symm ho
            · exact hm
          · intro hm
            rcases List.mem_cons.mp hm with he | hm2
            · exact ho he.symm
            · exact hc.2.1 hm2)]

end Qasm

namespace Qasm

theorem gateEdgesAux_chain_mem (gs : List (Nat × List String)) (j : Nat) :
    ∀ (ops seen : List String) (bid : String) (a : Nat),
      bid ∈ ops → bid ∉ seen → (usersNum bid gs).getLast? = some a →
      Edge.mk (gid a) (gid j) ∈ gateEdgesAux gs j seen ops := by
  intro ops
  induction ops with
  | nil => intro seen bid a hmem; cases hmem
  | cons o rest ih =>
    intro seen bid a hmem hseen hlast
    rw [gateEdgesAux]
    by_cases ho : o = bid
    · subst ho
      rw [if_neg hseen, hlast]
      simp only [Option.map_some', Option.getD_some]
      exact List.mem_cons_self _ _
    · rcases List.mem_cons.mp hmem with he | hm
      · exact absurd he.symm ho
      · refine List.mem_cons_of_mem _ ?_
        refine ih (o :: seen) bid a hm ?_ hlast
        intro hc
        rcases List.mem_cons.mp hc with he | hm2
        · exact ho he.symm
        · exact hseen hm2

theorem gateEdgesAux_all (gs : List (Nat × List String)) (j : Nat) :
    ∀ (ops seen : List String), ∀ e ∈ gateEdgesAux gs j seen ops,
      e.target = gid j ∧
      (e.source = gid j ∨
        (∃ o a, o ∈ ops ∧ (usersNum o gs).getLast? = some a ∧
          e.source = gid a) ∨
        (e.source ∈ ops ∧ usersNum e.source gs = [])) := by
  intro ops
  induction ops with
  | nil => intro seen e he; cases he
  | cons o rest ih =>
    intro seen e he
    rw [gateEdgesAux] at he
    rcases List.mem_cons.mp he with rfl | hm
    · refine ⟨rfl, ?_⟩
      by_cases hs : o ∈ seen
      · rw [if_pos hs]
        exact Or.inl rfl
      · rw [if_neg hs]
        cases hu : (usersNum o gs).getLast? with
        | none =>
          simp only [Option.map_none', Option.getD_none]
          exact Or.inr (Or.inr ⟨List.mem_cons_self _ _,
            List.getLast?_eq_none_iff.mp hu⟩)
        | some a =>
          simp only [Option.map_some', Option.getD_some]
          exact Or.inr (Or.inl ⟨o, a, List.mem_cons_self _ _, hu, rfl⟩)
    · obtain ⟨ht, hsrc⟩ := ih (o :: seen) e hm
      refine ⟨ht, ?_⟩
      rcases hsrc with h1 | ⟨o2, a, hmem, hlast, hes⟩ | ⟨hmem, hu⟩
      · exact Or.inl h1
      · exact Or.inr (Or.inl ⟨o2, a, List.mem_cons_of_mem o hmem, hlast, hes⟩)
      · exact Or.inr (Or.inr ⟨List.mem_cons_of_mem o hmem, hu⟩)

theorem usersNum_sub_keys {bid : String} {gs : List (Nat × List String)}
    {a : Nat} (h : a ∈ usersNum bid gs) : a ∈ gs.map Prod.fst := by
  rw [usersNum] at h
  rcases List.mem_map.mp h with ⟨p, hp, rfl⟩
  exact List.mem_map.mpr ⟨p, (List.mem_filter.mp hp).1, rfl⟩

theorem usersNum_bound {bid : String} {gs : List (Nat × List String)}
    {a : Nat} (hkeys : gs.map Prod.fst = List.range gs.length)
    (h : a ∈ usersNum bid gs) : a < gs.length := by
  have := usersNum_sub_keys h
  rw [hkeys] at this
  exact List.mem_range.mp this

theorem usersNum_increasing {bid : String} {gs : List (Nat × List String)}
    (hp : List.Pairwise (fun a b : Nat × List String => a.1 < b.1) gs) :
    List.Pairwise (· < ·) (usersNum bid gs) := by
  rw [usersNum]
  exact List.Pairwise.map _ (fun a b h => h) (List.Pairwise.filter _ hp)

theorem keys_range_pairwise {gs : List (Nat × List String)}
    (hkeys : gs.map Prod.fst = List.range gs.length) :
    List.Pairwise (fun a b : Nat × List String => a.1 < b.1) gs := by
  have : List.Pairwise (· < ·) (gs.map Prod.fst) := by
    rw [hkeys]
    exact List.pairwise_lt_range _
  exact (List.pairwise_map).mp this

end Qasm

namespace Qasm

/-! ## The build invariant tying the state to the gate sequence -/

/-- The records `_extractBits` produces: id and display name equal the
key, no last writer yet, and a bit node type. -/
def GoodBitRec (p : String × BitRec) : Prop :=
  p.2.id = p.1 ∧ p.2.name = p.1 ∧ p.2.lastGateConnected = none ∧
  isBitTypeStr p.2.type

theorem lookupBits_some_mem :
    ∀ {bits : Bits} {k : String} {b : BitRec},
      lookupBits bits k = some b → (k, b) ∈ bits := by
  intro bits
  induction bits with
  | nil => intro k b h; cases h
  | cons p r ih =>
    intro k b h
    obtain ⟨k0, v0⟩ := p
    rw [lookupBits] at h
    by_cases hk : k0 = k
    · rw [if_pos hk] at h
      subst hk
      rw [Option.some.inj h]
      exact List.mem_cons_self _ _
    · rw [if_neg hk] at h
      exact List.mem_cons_of_mem _ (ih h)

theorem insertBit_mem :
    ∀ {bits : Bits} {k : String} {v : BitRec} {p : String × BitRec},
      p ∈ insertBit bits k v → p = (k, v) ∨ p ∈ bits := by
  intro bits
  induction bits with
  | nil =>
    intro k v p h
    exact Or.inl (by simpa [insertBit] using h)
  | cons q r ih =>
    intro k v p h
    obtain ⟨k0, v0⟩ := q
    rw [insertBit] at h
    by_cases hk : k0 = k
    · rw [if_pos hk] at h
      rcases List.mem_cons.mp h with rfl | hm
      · exact Or.inl rfl
      · exact Or.inr (List.mem_cons_of_mem _ hm)
    · rw [if_neg hk] at h
      rcases List.mem_cons.mp h with rfl | hm
      · exact Or.inr (List.mem_cons_self _ _)
      · rcases ih hm with h1 | h1
        · exact Or.inl h1
        · exact Or.inr (List.mem_cons_of_mem _ h1)

theorem declareBits_good {bits : Bits} {kind name : String} {n : Nat}
    (hk : isBitTypeStr kind)
    (hb : ∀ p ∈ bits, GoodBitRec p) :
    ∀ p ∈ declareBits bits kind name n, GoodBitRec p := by
  induction n with
  | zero => exact hb
  | succ m ih =>
    intro p hp
    rw [declareBits_succ] at hp
    rcases insertBit_mem hp with rfl | hm
    · exact ⟨rfl, rfl, rfl, hk⟩
    · exact ih p hm

theorem extractBitsLine_good {bits : Bits} {l : String}
    (hb : ∀ p ∈ bits, GoodBitRec p) :
    ∀ p ∈ extractBitsLine bits l, GoodBitRec p := by
  rw [extractBitsLine]
  split
  · split
    · exact declareBits_good (Or.inl rfl) hb
    · exact hb
  · split
    · split
      · exact declareBits_good (Or.inr rfl) hb
      · exact hb
    · exact hb

theorem extractBits_good (lines : List String) :
    ∀ p ∈ extractBits lines, GoodBitRec p := by
  rw [extractBits]
  have : ∀ (ls : List String) (bits : Bits), (∀ p ∈ bits, GoodBitRec p) →
      ∀ p ∈ ls.foldl extractBitsLine bits, GoodBitRec p := by
    intro ls
    induction ls with
    | nil => intro bits hb; exact hb
    | cons l rest ih =>
      intro bits hb
      exact ih _ (extractBitsLine_good hb)
  exact this lines [] (by intro p hp; cases hp)

theorem bitType_not_gateType {t : String} (h : isBitTypeStr t) :
    ¬ isGateTypeStr t := by
  rcases h with rfl | rfl
  · rintro (h | h | h | h) <;> exact absurd h (by decide)
  · rintro (h | h | h | h) <;> exact absurd h (by decide)

/-- Assemble the claim-C10 snapshot property from the invariant's
components. -/
theorem SnapC10_of_parts {bits0 : Bits} {nodes0 : List Node} {g : Graph}
    {m : Nat} {gnodes : List Node}
    (hrec : ∀ p ∈ bits0, GoodBitRec p)
    (hn0 : nodes0 = bits0.map (fun p => Node.mk p.2.id p.2.type p.2.name none))
    (hgn : g.nodes = nodes0 ++ gnodes)
    (hid : gnodes.map Node.id = (List.range m).map gid)
    (hty : ∀ n ∈ gnodes, isGateTypeStr n.type)
    (he : ∀ e ∈ g.edges, ∃ t, t < m ∧ e.target = gid t ∧
      ((lookupBits bits0 e.source).isNone = false ∨
        ∃ a, a ≤ t ∧ e.source = gid a)) :
    SnapC10 g := by
  have hn0ty : ∀ n ∈ nodes0, isBitTypeStr n.type := by
    intro n hn
    rw [hn0] at hn
    rcases List.mem_map.mp hn with ⟨p, hp, rfl⟩
    exact (hrec p hp).2.2.2
  constructor
  · refine ⟨m, ?_⟩
    rw [hgn, List.filter_append]
    have h1 : nodes0.filter (fun n => decide (isGateTypeStr n.type)) = [] := by
      rw [List.filter_eq_nil_iff]
      intro n hn
      simp only [decide_eq_true_eq]
      exact bitType_not_gateType (hn0ty n hn)
    have h2 : gnodes.filter (fun n => decide (isGateTypeStr n.type)) = gnodes := by
      rw [List.filter_eq_self]
      intro n hn
      simp only [decide_eq_true_eq]
      exact hty n hn
    rw [h1, h2, List.nil_append, hid]
  · intro e hee
    obtain ⟨t, htm, htgt, hsrc⟩ := he e hee
    constructor
    · have : gid t ∈ gnodes.map Node.id := by
        rw [hid]
        exact List.mem_map.mpr ⟨t, List.mem_range.mpr htm, rfl⟩
      rcases List.mem_map.mp this with ⟨n, hn, hnid⟩
      exact ⟨n, by rw [hgn]; exact List.mem_append_right _ hn,
        by rw [hnid, htgt], hty n hn⟩
    · rcases hsrc with hdecl | ⟨a, hat, hsa⟩
      · left
        have hsome : ∃ b, lookupBits bits0 e.source = some b := by
          cases hl : lookupBits bits0 e.source with
          | none => rw [hl] at hdecl; cases hdecl
          | some b => exact ⟨b, rfl⟩
        obtain ⟨b, hb⟩ := hsome
        have hmem := lookupBits_some_mem hb
        have hg := hrec _ hmem
        refine ⟨Node.mk b.id b.type b.name none, ?_, ?_, ?_⟩
        · rw [hgn]
          refine List.mem_append_left _ ?_
          rw [hn0]
          exact List.mem_map.mpr ⟨(e.source, b), hmem, rfl⟩
        · exact hg.1
        · exact hg.2.2.2
      · right
        exact ⟨a, t, hsa, htgt, hat⟩

/-- The invariant of the instruction loop relative to the declared
registry `bits0`, the initial bit nodes `nodes0`, and the abstract gate
sequence `gs` of the lines processed so far. -/
structure GsInv (bits0 : Bits) (nodes0 : List Node)
    (gs : List (Nat × List String)) (s : St) : Prop where
  counter : s.gateIdCounter = gs.length
  keys : gs.map Prod.fst = List.range gs.length
  bitsRel : ∀ bid, lookupBits s.bits bid = (lookupBits bits0 bid).map
    (fun b0 => { b0 with lastGateConnected :=
      ((usersNum bid gs).getLast?).map gid })
  srcB : ∀ bid, (∀ ch ∈ bid.data, isAlphanumChar ch = true) →
    s.graph.edges.filter (fun e => e.source = bid) =
      (match (usersNum bid gs).head? with
       | none => []
       | some j => [Edge.mk bid (gid j)])
  chain : ∀ bid i a b, (usersNum bid gs).get? i = some a →
    (usersNum bid gs).get? (i + 1) = some b →
    Edge.mk (gid a) (gid b) ∈ s.graph.edges
  nodesOK : ∃ gnodes, s.graph.nodes = nodes0 ++ gnodes ∧
    gnodes.map Node.id = (List.range gs.length).map gid ∧
    ∀ n ∈ gnodes, isGateTypeStr n.type
  edgesOK : ∀ e ∈ s.graph.edges, ∃ t, t < gs.length ∧ e.target = gid t ∧
    ((lookupBits bits0 e.source).isNone = false ∨
      ∃ a, a ≤ t ∧ e.source = gid a)
  snaps : ∀ p ∈ s.timestamps, SnapC10 p.2

end Qasm

namespace Qasm

theorem initState_GsInv (lines : List String) :
    GsInv (extractBits lines)
      ((extractBits lines).map (fun p => Node.mk p.2.id p.2.type p.2.name none))
      [] (initState lines) := by
  refine ⟨rfl, rfl, ?_, ?_, ?_, ?_, ?_, ?_⟩
  · intro bid
    show lookupBits (extractBits lines) bid = _
    cases hl : lookupBits (extractBits lines) bid with
    | none => rfl
    | some b =>
      have hg := extractBits_good lines _ (lookupBits_some_mem hl)
      simp only [Option.map_some']
      congr 1
      obtain ⟨bi, bt, bn, blast⟩ := b
      have : blast = none := hg.2.2.1
      subst this
      rfl
  · intro bid _
    rfl
  · intro bid i a b h1
    have : usersNum bid ([] : List (Nat × List String)) = [] := rfl
    rw [this] at h1
    cases h1
  · refine ⟨[], ?_, rfl, ?_⟩
    · show (extractBits lines).map _ = _ ++ ([] : List Node)
      rw [List.append_nil]
    · intro n hn
      cases hn
  · intro e he
    cases he
  · intro p hp
    have hp2 : p = (0, cloneGraph
        { nodes := (extractBits lines).map (fun q =>
            { id := q.2.id, type := q.2.type, name := q.2.name, info := none }),
          edges := [] }) := by
      simpa [initState] using hp
    subst hp2
    rw [cloneGraph_id]
    exact @SnapC10_of_parts _ _ _ 0 [] (extractBits_good lines)
      rfl (List.append_nil _).symm rfl (fun n hn => absurd hn (by simp))
      (fun e he => absurd he (by simp))

theorem stepLine_GsInv {bits0 : Bits} {nodes0 : List Node}
    {gs : List (Nat × List String)} {s s' : St} {l : String}
    (hrec : ∀ p ∈ bits0, GoodBitRec p)
    (hn0 : nodes0 = bits0.map (fun p => Node.mk p.2.id p.2.type p.2.name none))
    (h : stepLine s l = .ok s') (hinv : GsInv bits0 nodes0 gs s) :
    GsInv bits0 nodes0 (gs ++ gatesOf gs.length [l]) s' := by
  rcases stepLine_ok_cases h with ⟨hsk, rfl⟩ | ⟨hsk, hv, rfl⟩ |
    ⟨spec, t, hsk, hv, happ, rfl⟩
  · have hg : gatesOf gs.length [l] = [] := by
      rw [gatesOf, if_pos hsk]
      rfl
    rw [hg, List.append_nil]
    exact hinv
  · have hg : gatesOf gs.length [l] = [] := by
      rw [gatesOf, if_neg (by rw [hsk]; exact fun hc => nomatch hc), hv]
      rfl
    rw [hg, List.append_nil]
    exact ⟨hinv.counter, hinv.keys, hinv.bitsRel, hinv.srcB, hinv.chain,
      hinv.nodesOK, hinv.edgesOK, hinv.snaps⟩
  · obtain ⟨es, hgr, hres, hgc⟩ := applyGate_ok_graph happ
    have hcnt := hinv.counter
    rw [hcnt] at hres hgr hgc
    have hmid : midRel bits0 gs gs.length [] s.bits := by
      intro bid
      rw [hinv.bitsRel bid]
      simp
    obtain ⟨hes, hbits1⟩ :=
      resolveOps_char bits0 gs gs.length spec.ops [] s.bits es t.1 hmid hres
    have hgates : gatesOf gs.length [l] = [(gs.length, spec.ops)] := by
      rw [gatesOf, if_neg (by rw [hsk]; exact fun hc => nomatch hc), hv]
      rfl
    rw [hgates]
    have hlen : (gs ++ [(gs.length, spec.ops)]).length = gs.length + 1 := by
      simp
    -- the primed components
    have hcounter : (advanceState s t).gateIdCounter =
        (gs ++ [(gs.length, spec.ops)]).length := by
      show t.2.1 = _
      rw [hgc, hlen]
    have hkeys : (gs ++ [(gs.length, spec.ops)]).map Prod.fst =
        List.range (gs ++ [(gs.length, spec.ops)]).length := by
      rw [hlen, List.map_append, hinv.keys, List.range_succ]
      rfl
    have hbitsRel : ∀ bid, lookupBits (advanceState s t).bits bid =
        (lookupBits bits0 bid).map
          (fun b0 => { b0 with lastGateConnected :=
            ((usersNum bid (gs ++ [(gs.length, spec.ops)])).getLast?).map gid }) := by
      intro bid
      show lookupBits t.1 bid = _
      rw [hbits1 bid, usersNum_append]
      by_cases hbo : bid ∈ spec.ops
      · simp [hbo, List.getLast?_concat]
      · simp [hbo]
    have hedges' : (advanceState s t).graph.edges = s.graph.edges ++ es := by
      show t.2.2.edges = _
      rw [hgr]
    have hnodes' : (advanceState s t).graph.nodes = s.graph.nodes ++
        [Node.mk (gid gs.length) spec.type spec.name spec.info] := by
      show t.2.2.nodes = _
      rw [hgr]
    have hsrcB : ∀ bid, (∀ ch ∈ bid.data, isAlphanumChar ch = true) →
        (advanceState s t).graph.edges.filter (fun e => e.source = bid) =
          (match (usersNum bid (gs ++ [(gs.length, spec.ops)])).head? with
           | none => []
           | some j => [Edge.mk bid (gid j)]) := by
      intro bid halpha
      rw [hedges', List.filter_append, hinv.srcB bid halpha, hes,
        gateEdgesAux_src_filter gs gs.length bid halpha spec.ops [],
        usersNum_append]
      cases hu : usersNum bid gs with
      | nil =>
        by_cases hbo : bid ∈ spec.ops
        · rw [if_pos ⟨hbo, by simp, rfl⟩]
          simp [hbo]
        · rw [if_neg (fun hc => hbo hc.1)]
          simp [hbo]
      | cons a u2 =>
        rw [if_neg (fun hc => by cases hc.2.2)]
        by_cases hbo : bid ∈ spec.ops
        · simp [hbo]
        · simp [hbo]
    have hchain : ∀ bid i a b,
        (usersNum bid (gs ++ [(gs.length, spec.ops)])).get? i = some a →
        (usersNum bid (gs ++ [(gs.length, spec.ops)])).get? (i + 1) = some b →
        Edge.mk (gid a) (gid b) ∈ (advanceState s t).graph.edges := by
      intro bid i a b h1 h2
      rw [usersNum_append] at h1 h2
      rw [hedges']
      by_cases hbo : bid ∈ spec.ops
      · rw [if_pos hbo] at h1 h2
        set u := usersNum bid gs with hu
        by_cases hi2 : i + 1 < u.length
        · have hi1 : i < u.length := by omega
          rw [List.get?_append hi2] at h2
          rw [List.get?_append hi1] at h1
          exact List.mem_append_left _ (hinv.chain bid i a b h1 h2)
        · by_cases hieq : i + 1 = u.length
          · have hi1 : i < u.length := by omega
            rw [List.get?_append hi1] at h1
            rw [hieq, List.get?_concat_length] at h2
            have hb : b = gs.length := by
              have := Option.some.inj h2
              omega
            have hlast : u.getLast? = some a := by
              rw [List.getLast?_eq_get?]
              have : u.length - 1 = i := by omega
              rw [this]
              exact h1
            subst hb
            refine List.mem_append_right _ ?_
            rw [hes]
            exact gateEdgesAux_chain_mem gs gs.length spec.ops [] bid a hbo
              (by simp) hlast
          · exfalso
            have : (u ++ [gs.length]).length ≤ i + 1 := by
              simp only [List.length_append, List.length_cons,
                List.length_nil]
              omega
            rw [List.get?_eq_none.mpr this] at h2
            cases h2
      · rw [if_neg hbo, List.append_nil] at h1 h2
        exact List.mem_append_left _ (hinv.chain bid i a b h1 h2)
    obtain ⟨gnodes, hgn, hid, hty⟩ := hinv.nodesOK
    have hnodesOK : ∃ gnodes2, (advanceState s t).graph.nodes =
        nodes0 ++ gnodes2 ∧
        gnodes2.map Node.id =
          (List.range (gs ++ [(gs.length, spec.ops)]).length).map gid ∧
        ∀ n ∈ gnodes2, isGateTypeStr n.type := by
      refine ⟨gnodes ++ [Node.mk (gid gs.length) spec.type spec.name spec.info],
        ?_, ?_, ?_⟩
      · rw [hnodes', hgn, List.append_assoc]
      · rw [hlen, List.map_append, hid, List.range_succ, List.map_append]
        rfl
      · intro n hn
        rcases List.mem_append.mp hn with hm | hm
        · exact hty n hm
        · have : n = Node.mk (gid gs.length) spec.type spec.name spec.info := by
            simpa using hm
          subst this
          exact (lineVerdict_some_shape hv).1
    have hedgesOK : ∀ e ∈ (advanceState s t).graph.edges,
        ∃ t2, t2 < (gs ++ [(gs.length, spec.ops)]).length ∧
          e.target = gid t2 ∧
          ((lookupBits bits0 e.source).isNone = false ∨
            ∃ a, a ≤ t2 ∧ e.source = gid a) := by
      intro e he
      rw [hedges'] at he
      rcases List.mem_append.mp he with hm | hm
      · obtain ⟨t0, hlt, htgt, hsrc⟩ := hinv.edgesOK e hm
        exact ⟨t0, by rw [hlen]; omega, htgt, hsrc⟩
      · rw [hes] at hm
        obtain ⟨htgt, hsrc⟩ := gateEdgesAux_all gs gs.length spec.ops [] e hm
        refine ⟨gs.length, by rw [hlen]; omega, htgt, ?_⟩
        rcases hsrc with h1 | ⟨o, a, ho, hlast, hsa⟩ | ⟨hmem, hu⟩
        · exact Or.inr ⟨gs.length, Nat.le_refl _, h1⟩
        · have ha : a ∈ usersNum o gs := by
            obtain ⟨ys, hys⟩ := List.getLast?_eq_some_iff.mp hlast
            rw [hys]
            exact List.mem_append_right _ (List.mem_cons_self _ _)
          have := usersNum_bound hinv.keys ha
          exact Or.inr ⟨a, by omega, hsa⟩
        · left
          have hdecl := resolveOps_ok_declared hres e.source hmem
          rw [hinv.bitsRel e.source] at hdecl
          cases hl : lookupBits bits0 e.source with
          | none => rw [hl] at hdecl; cases hdecl
          | some b => rfl
    have hsnapNew : SnapC10 (advanceState s t).graph := by
      obtain ⟨gnodes2, hgn2, hid2, hty2⟩ := hnodesOK
      exact SnapC10_of_parts hrec hn0 hgn2 hid2 hty2 hedgesOK
    refine ⟨hcounter, hkeys, hbitsRel, hsrcB, hchain, hnodesOK, hedgesOK, ?_⟩
    intro p hp
    show SnapC10 p.2
    have hts : (advanceState s t).timestamps =
        s.timestamps ++ [(s.lineCounter + 1, cloneGraph t.2.2)] := rfl
    rw [hts] at hp
    rcases List.mem_append.mp hp with hm | hm
    · exact hinv.snaps p hm
    · have : p = (s.lineCounter + 1, cloneGraph t.2.2) := by simpa using hm
      subst this
      show SnapC10 (cloneGraph t.2.2)
      rw [cloneGraph_id]
      exact hsnapNew

end Qasm

namespace Qasm

/-- `gatesOf` on a cons splits into the head line's contribution and the
tail, with the counter advanced by the head's gate count. -/
theorem gatesOf_cons (c : Nat) (l : String) (rest : List String) :
    gatesOf c (l :: rest) =
      gatesOf c [l] ++ gatesOf (c + (gatesOf c [l]).length) rest := by
  rw [gatesOf, gatesOf]
  by_cases hsk : skipLine l
  · rw [if_pos hsk, if_pos hsk]
    rfl
  · rw [if_neg hsk, if_neg hsk]
    cases hv : lineVerdict l with
    | error e => rfl
    | ok o =>
      cases o with
      | none => rfl
      | some spec => rfl

/-- The gate-sequence invariant is preserved by any successful run. -/
theorem runLines_GsInv {bits0 : Bits} {nodes0 : List Node}
    (hrec : ∀ p ∈ bits0, GoodBitRec p)
    (hn0 : nodes0 = bits0.map (fun p => Node.mk p.2.id p.2.type p.2.name none))
    {ls : List String} {gs : List (Nat × List String)} {s s' : St}
    (h : runLines s ls = .ok s') (hinv : GsInv bits0 nodes0 gs s) :
    GsInv bits0 nodes0 (gs ++ gatesOf gs.length ls) s' := by
  induction ls generalizing gs s with
  | nil =>
    injection h with h
    subst h
    rw [gatesOf, List.append_nil]
    exact hinv
  | cons l rest ih =>
    rw [runLines_cons] at h
    cases hst : stepLine s l with
    | error e =>
      rw [hst] at h
      cases h
    | ok s1 =>
      rw [hst] at h
      have hinv1 := stepLine_GsInv hrec hn0 hst hinv
      have hres := ih h hinv1
      rw [List.length_append] at hres
      rw [gatesOf_cons, ← List.append_assoc]
      exact hres

end Qasm

namespace Qasm

/-- The gate-sequence invariant holds of every successful final build
state, over the gates recognized in the sanitized lines. -/
theorem buildFinalState_GsInv {text : String} {s : St}
    (h : buildFinalState text = .ok s) :
    GsInv (extractBits (sanitizeLines text))
      ((extractBits (sanitizeLines text)).map
        (fun p => Node.mk p.2.id p.2.type p.2.name none))
      (gatesOf 0 (sanitizeLines text)) s := by
  rw [buildFinalState] at h
  have h0 := initState_GsInv (sanitizeLines text)
  have hres := runLines_GsInv (extractBits_good _) rfl h h0
  simpa using hres

/-- C7: in an accepted build, when gate number `a` is the `i`-th user of a
bit `B` (so `g_a` is the writer recorded on `B`) and gate number `b` is
the next user, the final graph has the edge `(g_a, g_b)` and no edge
`(B, g_b)`; every edge whose source is the bit id `B` itself targets the
first gate that ever uses `B`. -/
theorem claim_C7 {text : String} {sF : St} {B : String} {i a b : Nat}
    (hok : buildFinalState text = .ok sF)
    (halpha : ∀ ch ∈ B.data, isAlphanumChar ch = true)
    (h1 : (usersNum B (gatesOf 0 (sanitizeLines text))).get? i = some a)
    (h2 : (usersNum B (gatesOf 0 (sanitizeLines text))).get? (i + 1) = some b) :
    Edge.mk (gid a) (gid b) ∈ sF.graph.edges ∧
    Edge.mk B (gid b) ∉ sF.graph.edges ∧
    ∀ e ∈ sF.graph.edges, e.source = B →
      ∃ j, (usersNum B (gatesOf 0 (sanitizeLines text))).head? = some j ∧
        e = Edge.mk B (gid j) := by
  have hinv := buildFinalState_GsInv hok
  have hsrc := hinv.srcB B halpha
  refine ⟨hinv.chain B i a b h1 h2, ?_, ?_⟩
  · intro hmem
    have hfil : Edge.mk B (gid b) ∈
        sF.graph.edges.filter (fun e => e.source = B) :=
      List.mem_filter.mpr ⟨hmem, by simp⟩
    rw [hsrc] at hfil
    cases hh : (usersNum B (gatesOf 0 (sanitizeLines text))).head? with
    | none =>
      rw [hh] at hfil
      cases hfil
    | some j =>
      rw [hh] at hfil
      have hedge := List.mem_singleton.mp hfil
      have hbj : b = j := gid_injective (congrArg Edge.target hedge)
      have h0 : (usersNum B (gatesOf 0 (sanitizeLines text))).get? 0 =
          some j := by
        rw [List.get?_zero]
        exact hh
      have hpw := @usersNum_increasing B _
        (keys_range_pairwise hinv.keys)
      obtain ⟨hl0, hg0⟩ := List.get?_eq_some.mp h0
      obtain ⟨hl1, hg1⟩ := List.get?_eq_some.mp h2
      have hlt := (List.pairwise_iff_get.mp hpw) ⟨0, hl0⟩ ⟨i + 1, hl1⟩
        (by exact Fin.mk_lt_mk.mpr (Nat.succ_pos i))
      rw [hg0, hg1] at hlt
      omega
  · intro e hmem hsB
    have hfil : e ∈ sF.graph.edges.filter (fun e => e.source = B) :=
      List.mem_filter.mpr ⟨hmem, by simp [hsB]⟩
    rw [hsrc] at hfil
    cases hh : (usersNum B (gatesOf 0 (sanitizeLines text))).head? with
    | none =>
      rw [hh] at hfil
      cases hfil
    | some j =>
      rw [hh] at hfil
      exact ⟨j, rfl, List.mem_singleton.mp hfil⟩

def c7Input : String := "qreg q[1];" ++ "\n" ++ "h q[0];" ++ "\n" ++ "x q[0];"

def c7FinalState : St :=
  St.mk
    [("q0", { id := "q0", type := "qubit", name := "q0",
              lastGateConnected := some "g_1" })]
    2
    (Graph.mk
      [Node.mk "q0" "qubit" "q0" none,
       Node.mk "g_0" "single_qubit_gate" "h" none,
       Node.mk "g_1" "single_qubit_gate" "x" none]
      [Edge.mk "q0" "g_0", Edge.mk "g_0" "g_1"])
    2
    [(0, Graph.mk [Node.mk "q0" "qubit" "q0" none] []),
     (1, Graph.mk [Node.mk "q0" "qubit" "q0" none,
                   Node.mk "g_0" "single_qubit_gate" "h" none]
          [Edge.mk "q0" "g_0"]),
     (2, Graph.mk [Node.mk "q0" "qubit" "q0" none,
                   Node.mk "g_0" "single_qubit_gate" "h" none,
                   Node.mk "g_1" "single_qubit_gate" "x" none]
          [Edge.mk "q0" "g_0", Edge.mk "g_0" "g_1"])]

/-- Witness for C7: `q0` is used by gates 0 (`h`) and 1 (`x`); the final
graph has edge `(g_0, g_1)`, no edge `(q0, g_1)`, and the only edge out
of `q0` targets `g_0`. -/
theorem claim_C7_witness :
    Edge.mk (gid 0) (gid 1) ∈ c7FinalState.graph.edges ∧
    Edge.mk ("q0") (gid 1) ∉ c7FinalState.graph.edges ∧
    ∀ e ∈ c7FinalState.graph.edges, e.source = ("q0") →
      ∃ j, (usersNum ("q0") (gatesOf 0 (sanitizeLines c7Input))).head? =
          some j ∧ e = Edge.mk ("q0") (gid j) :=
  @claim_C7 c7Input c7FinalState ("q0") 0 0 1
    (by decide) (by decide) (by decide) (by decide)

end Qasm

namespace Qasm

def c10Input : String := "qreg q[1];" ++ "\n" ++ "cx q[0],q[0];"

def c10Snap : Graph :=
  Graph.mk
    [Node.mk "q0" "qubit" "q0" none,
     Node.mk "g_0" "two_qubit_gate" "cx" none]
    [Edge.mk "q0" "g_0", Edge.mk "g_0" "g_0"]

def c10Ts : List (Nat × Graph) :=
  [(0, Graph.mk [Node.mk "q0" "qubit" "q0" none] []),
   (1, c10Snap)]

/-- C10 counterexample: for `cx q[0],q[0];` the snapshot at key 1
contains the self-edge `(g_0, g_0)`: its source is the id of a gate node
(not of a declared bit), yet that gate is not created strictly earlier
than the target, since it is the target. -/
theorem claim_C10_counterexample :
    parse c10Input = .ok c10Ts ∧
    List.lookup 1 c10Ts = some c10Snap ∧
    Edge.mk (gid 0) (gid 0) ∈ c10Snap.edges ∧
    (∀ n ∈ c10Snap.nodes, n.id = gid 0 → isGateTypeStr n.type) ∧
    ¬ (∃ a t, gid a = gid 0 ∧ gid t = gid 0 ∧ a < t) := by
  refine ⟨by decide, by decide, by decide, by decide, ?_⟩
  rintro ⟨a, t, ha, ht, hlt⟩
  have ha0 := gid_injective ha
  have ht0 := gid_injective ht
  omega

/-- C10 (amended): in every snapshot of a successful build the gate-node
ids are exactly `g_0 .. g_(m-1)` for some `m`, every edge targets a gate
node present in that snapshot, and every edge source is either the id of
a declared-bit node present in that snapshot or a gate id `g_a` with
`a ≤ t` for target `g_t` — equality occurring when a gate lists the same
bit twice, so the source gate need not be strictly earlier. -/
theorem claim_C10_amended {text : String} {ts : List (Nat × Graph)}
    (h : parse text = .ok ts) :
    ∀ p ∈ ts, SnapC10 p.2 := by
  rw [parse] at h
  cases hb : buildFinalState text with
  | error e =>
    rw [hb] at h
    cases h
  | ok s =>
    rw [hb] at h
    injection h with h
    subst h
    exact (buildFinalState_GsInv hb).snaps

/-- Witness for the amended C10 at the self-edge input itself: its key-1
snapshot is well-formed in the amended sense. -/
theorem claim_C10_amended_witness : SnapC10 c10Snap :=
  @claim_C10_amended c10Input c10Ts (by decide) (1, c10Snap) (by decide)

end Qasm
